import Mathlib

/-!
Verification of the thunderdome generational arena.

This file gives a shallow embedding of the library's data model and
operations (src/arena.rs, src/generation.rs, src/free_pointer.rs,
src/iter/iter.rs, src/iterators.rs) and proves the specification claims
about them.

Modelling conventions:
- Rust u32 values are modelled as Nat; operations that in Rust check for
  u32 overflow are given the corresponding explicit guards against
  u32max = 2^32 - 1.
- Functions that can panic (including the unreachable branches) return
  Option: none models a panic, some models normal completion.  A Rust
  function that itself returns Option r therefore becomes
  Option (Option r × state).
- Mutable references collapse to values: get_mut behaves as get, and
  the pair of references from get2_mut becomes a pair of optional values.
- Closures passed to retain (Rust FnMut(Index, &mut T) -> bool) become
  pure functions Index -> T -> Bool × T returning the keep decision and
  the possibly-updated value.
-/

namespace Thunderdome

/-- Largest value of the Rust type u32, 2^32 - 1. -/
def u32max : Nat := 4294967295

/- Generation (src/generation.rs) is a NonZeroU32 counter; it is modelled
as a plain Nat, with the nonzero range invariant 1 <= g <= u32max carried
by theorems.  FreePointer (src/free_pointer.rs) is a NonZeroU32 holding
slot + 1; it is likewise modelled as the Nat it stores. -/

/-- Translation of Generation::first: the first generation is 1. -/
def Generation.first : Nat := 1

/-- Translation of Generation::next: checked_add(1).unwrap_or(1), i.e. the
successor, wrapping to 1 at the u32 maximum instead of overflowing. -/
def Generation.next (g : Nat) : Nat :=
  if g = u32max then 1 else g + 1

/-- Translation of Generation::to_u32. -/
def Generation.to_u32 (g : Nat) : Nat := g

/-- Translation of Generation::from_u32: NonZeroU32::new, none on zero. -/
def Generation.from_u32 (g : Nat) : Option Nat :=
  if g = 0 then none else some g

/-- Translation of FreePointer::from_slot: slot.checked_add(1).expect(..);
the expect panics (none) exactly when slot is u32::MAX. -/
def FreePointer.from_slot (slot : Nat) : Option Nat :=
  if slot = u32max then none else some (slot + 1)

/-- Translation of FreePointer::slot: the stored value minus one. -/
def FreePointer.slot (p : Nat) : Nat := p - 1

/-- Index (src/arena.rs): a slot number paired with a generation. -/
structure Index where
  slot : Nat
  generation : Nat
deriving DecidableEq

/-- Translation of Index::to_bits: (generation as u64) << 32 | slot. -/
def Index.to_bits (i : Index) : Nat :=
  (Generation.to_u32 i.generation <<< 32) ||| i.slot

/-- Translation of Index::from_bits: decode the generation from the high
32 bits (rejecting zero) and the slot from the low 32 bits.  The casts
from u64 to u32 are modelled by reduction mod 2^32. -/
def Index.from_bits (bits : Nat) : Option Index :=
  match Generation.from_u32 ((bits >>> 32) % 4294967296) with
  | none => none
  | some generation => some { slot := bits % 4294967296, generation }

/-- Entry (src/arena.rs): each storage position is Occupied or Empty.
An Empty entry stores the next free pointer of the free list. -/
inductive Entry (T : Type) where
  | occupied (generation : Nat) (value : T)
  | empty (generation : Nat) (next_free : Option Nat)
deriving DecidableEq

/-- Arena (src/arena.rs): storage vector, live length, free-list head. -/
structure Arena (T : Type) where
  storage : List (Entry T)
  len : Nat
  first_free : Option Nat
deriving DecidableEq

variable {T : Type}

/-- Translation of Arena::new. -/
def Arena.new : Arena T :=
  { storage := [], len := 0, first_free := none }

/-- Translation of Arena::is_empty. -/
def Arena.is_empty (a : Arena T) : Bool := a.len = 0

/-- Translation of Arena::insert.  none models the insertion-count
overflow panic and the two unreachable branches (first_free pointing
past the end of storage or at an occupied entry, and a storage length
that does not fit in u32). -/
def Arena.insert (a : Arena T) (value : T) : Option (Index × Arena T) :=
  if a.len = u32max then none
  else
    match a.first_free with
    | some fp =>
      let slot := FreePointer.slot fp
      match a.storage[slot]? with
      | some (.empty gen next_free) =>
        let generation := Generation.next gen
        some (⟨slot, generation⟩,
          { storage := a.storage.set slot (.occupied generation value),
            len := a.len + 1,
            first_free := next_free })
      | _ => none
    | none =>
      let generation := Generation.first
      if u32max < a.storage.length then none
      else
        some (⟨a.storage.length, generation⟩,
          { storage := a.storage ++ [.occupied generation value],
            len := a.len + 1,
            first_free := none })

/-- Translation of Arena::get. -/
def Arena.get (a : Arena T) (index : Index) : Option T :=
  match a.storage[index.slot]? with
  | some (.occupied gen value) =>
    if gen = index.generation then some value else none
  | _ => none

/-- Translation of Arena::contains. -/
def Arena.contains (a : Arena T) (index : Index) : Bool :=
  match a.storage[index.slot]? with
  | some (.occupied gen _) => gen = index.generation
  | _ => false

/-- Translation of Arena::contains_slot. -/
def Arena.contains_slot (a : Arena T) (slot : Nat) : Option Index :=
  match a.storage[slot]? with
  | some (.occupied gen _) => some ⟨slot, gen⟩
  | _ => none

/-- Translation of Arena::get2_mut, with references collapsed to values:
panic (none) when the indices are equal, otherwise the two independent
lookups. -/
def Arena.get2_mut (a : Arena T) (index1 index2 : Index) :
    Option (Option T × Option T) :=
  if index1 = index2 then none
  else some (a.get index1, a.get index2)

/-- Translation of Arena::remove.  The outer Option models the panics
(FreePointer::from_slot overflow at slot u32::MAX, and the unreachable
length underflow); the inner Option is the function's Rust return. -/
def Arena.remove (a : Arena T) (index : Index) : Option (Option T × Arena T) :=
  match a.storage[index.slot]? with
  | some (.occupied gen value) =>
    if gen = index.generation then
      match FreePointer.from_slot index.slot with
      | none => none
      | some fp =>
        if a.len = 0 then none
        else
          some (some value,
            { storage := a.storage.set index.slot (.empty gen a.first_free),
              len := a.len - 1,
              first_free := some fp })
    else some (none, a)
  | some (.empty _ _) => some (none, a)
  | none => some (none, a)

/-- Translation of Arena::remove_by_slot: like remove but ignoring the
generation, returning the index that addressed the removed entry. -/
def Arena.remove_by_slot (a : Arena T) (slot : Nat) :
    Option (Option (Index × T) × Arena T) :=
  match a.storage[slot]? with
  | some (.occupied gen value) =>
    match FreePointer.from_slot slot with
    | none => none
    | some fp =>
      if a.len = 0 then none
      else
        some (some (⟨slot, gen⟩, value),
          { storage := a.storage.set slot (.empty gen a.first_free),
            len := a.len - 1,
            first_free := some fp })
  | some (.empty _ _) => some (none, a)
  | none => some (none, a)

/-- Translation of Arena::invalidate: advance the generation in place.
This function has no panicking path. -/
def Arena.invalidate (a : Arena T) (index : Index) : Option Index × Arena T :=
  match a.storage[index.slot]? with
  | some (.occupied gen value) =>
    if gen = index.generation then
      (some ⟨index.slot, Generation.next gen⟩,
        { a with storage :=
            a.storage.set index.slot (.occupied (Generation.next gen) value) })
    else (none, a)
  | _ => (none, a)

/-- Loop of Arena::remove_slot_from_free_list: walk the free list from
pointer p until the pointed slot is the target, returning the slot whose
next_free field points at the target (none meaning the root first_free
does).  Fuel bounds the traversal; exhausted fuel and the expect
failures (entry missing, not empty, or chain ending early) are none. -/
def findPrevFree (storage : List (Entry T)) (target : Nat) :
    Nat → Nat → Option Nat → Option (Option Nat)
  | 0, _, _ => none
  | fuel + 1, p, current =>
    if FreePointer.slot p = target then some current
    else
      match storage[FreePointer.slot p]? with
      | some (.empty _ (some nf)) =>
        findPrevFree storage target fuel nf (some (FreePointer.slot p))
      | _ => none

/-- Translation of Arena::remove_slot_from_free_list: splice the given
known-empty slot out of the free list, pointing its predecessor (or the
root) at new_next_free. -/
def Arena.remove_slot_from_free_list (a : Arena T) (slot : Nat)
    (new_next_free : Option Nat) : Option (Arena T) :=
  match a.first_free with
  | none => none
  | some p =>
    match findPrevFree a.storage slot (a.storage.length + 1) p none with
    | none => none
    | some none => some { a with first_free := new_next_free }
    | some (some fix) =>
      match a.storage[fix]? with
      | some (.empty gen _) =>
        some { a with storage := a.storage.set fix (.empty gen new_next_free) }
      | _ => none

/-- Loop of the third case of Arena::insert_at_inner: extend storage with
Empty placeholders, threading each into the free list, until the storage
length reaches the target slot.  Returns the extended storage and the
final first_free value. -/
def pushEmpties (slot : Nat) (storage : List (Entry T))
    (first_free : Option Nat) :
    Option (List (Entry T) × Option Nat) :=
  if storage.length < slot then
    if u32max < storage.length then none
    else
      match FreePointer.from_slot storage.length with
      | none => none
      | some fp =>
        pushEmpties slot (storage ++ [.empty Generation.first first_free])
          (some fp)
  else some (storage, first_free)
termination_by slot - storage.length
decreasing_by simp [List.length_append]; omega

/-- Translation of Arena::insert_at_inner. -/
def Arena.insert_at_inner (a : Arena T) (slot : Nat)
    (generation? : Option Nat) (value : T) :
    Option ((Index × Option T) × Arena T) :=
  match a.storage[slot]? with
  | some (.empty gen next_free) =>
    let generation := generation?.getD (Generation.next gen)
    match a.remove_slot_from_free_list slot next_free with
    | none => none
    | some b =>
      if b.len = u32max then none
      else
        some ((⟨slot, generation⟩, none),
          { storage := b.storage.set slot (.occupied generation value),
            len := b.len + 1,
            first_free := b.first_free })
  | some (.occupied gen old_value) =>
    let generation := generation?.getD (Generation.next gen)
    some ((⟨slot, generation⟩, some old_value),
      { a with storage := a.storage.set slot (.occupied generation value) })
  | none =>
    match pushEmpties slot a.storage a.first_free with
    | none => none
    | some (storage, first_free) =>
      let generation := generation?.getD Generation.first
      if a.len = u32max then none
      else
        some ((⟨slot, generation⟩, none),
          { storage := storage ++ [.occupied generation value],
            len := a.len + 1,
            first_free := first_free })

/-- Translation of Arena::insert_at. -/
def Arena.insert_at (a : Arena T) (index : Index) (value : T) :
    Option (Option T × Arena T) :=
  (a.insert_at_inner index.slot (some index.generation) value).map
    (fun r => (r.1.2, r.2))

/-- Translation of Arena::insert_at_slot. -/
def Arena.insert_at_slot (a : Arena T) (slot : Nat) (value : T) :
    Option ((Index × Option T) × Arena T) :=
  a.insert_at_inner slot none value

/-- One step of the loop body of Arena::retain at storage position i:
the predicate (modelled as returning the keep decision together with the
possibly mutated value) runs on an occupied entry; a rejected entry is
replaced by an Empty pushed onto the free list as in remove. -/
def retainStep (f : Index → T → Bool × T) (a : Arena T) (i : Nat) :
    Option (Arena T) :=
  match a.storage[i]? with
  | some (.occupied gen value) =>
    match f ⟨i, gen⟩ value with
    | (true, value') =>
      some { a with storage := a.storage.set i (.occupied gen value') }
    | (false, _) =>
      match FreePointer.from_slot i with
      | none => none
      | some fp =>
        if a.len = 0 then none
        else
          some { storage := a.storage.set i (.empty gen a.first_free),
                 len := a.len - 1,
                 first_free := some fp }
  | _ => some a

/-- Translation of Arena::retain: the in-place loop over
storage.iter_mut().enumerate() becomes a fold of retainStep over all
storage positions in ascending order (each position is visited exactly
once and only its own entry plus the len and first_free fields are
mutated, so the fold is the loop). -/
def Arena.retain (a : Arena T) (f : Index → T → Bool × T) :
    Option (Arena T) :=
  (List.range a.storage.length).foldlM (retainStep f) a

/-- Translation of Iter::next (src/iter/iter.rs), unfolded into the full
list of yielded items.  The iterator state is the len and slot counters
plus the remaining storage slice; each call first checks the guard
len == 0 || slot > len from the source, then advances over the slice.
The unreachable slot-counter overflow is not modelled (slot never
exceeds the storage length). -/
def iterToList : Nat → Nat → List (Entry T) → List (Index × T)
  | _, _, [] => []
  | len, slot, e :: rest =>
    if len = 0 ∨ len < slot then []
    else
      match e with
      | .empty _ _ => iterToList len (slot + 1) rest
      | .occupied gen value =>
        (⟨slot, gen⟩, value) :: iterToList (len - 1) (slot + 1) rest

/-- Translation of Arena::iter: an Iter starts at slot 0 with the
arena's len and its whole storage, so the yielded items are iterToList
of those. -/
def Arena.iter (a : Arena T) : List (Index × T) :=
  iterToList a.len 0 a.storage

/-- Translation of Drain::next (src/iterators.rs): loop removing entries
by ascending slot until the arena reports empty.  Fuel models the u32
slot counter: running out of fuel corresponds to the counter-overflow
panic, which also folds the other panic paths into none.  On success the
yielded pair is returned together with the updated arena and slot.
The Drain that Arena::drain actually returns is crate::iter::Drain,
declared in src/iter/mod.rs, whose file src/iter/drain.rs is not in the
tree; the spec gives it the same next contract as IntoIter, which is
this loop, so the translation of the present src/iterators.rs Drain
stands for both. -/
def drainNext : Nat → Arena T → Nat → Option ((Index × T) × (Arena T × Nat))
  | 0, _, _ => none
  | fuel + 1, a, slot =>
    if a.is_empty then none
    else
      match a.remove_by_slot slot with
      | none => none
      | some (some r, b) => some (r, (b, slot + 1))
      | some (none, b) => drainNext fuel b (slot + 1)

/-- A number of successive Drain::next calls on an iterator state
(borrowed arena, slot counter), stopping early once a call returns
None. -/
def drainConsume (fuel : Nat) : Nat → Arena T × Nat → Arena T × Nat
  | 0, st => st
  | k + 1, st =>
    match drainNext fuel st.1 st.2 with
    | none => st
    | some (_, st') => drainConsume fuel k st'

/-- Modelled from the spec: the drop glue of Drain.  The file
src/iter/drain.rs holding the Drain that Arena::drain returns is missing
from the tree (src/iter/mod.rs declares mod drain, and arena.rs's drain
constructs crate::iter::Drain by a field literal, which the stale
private-field Drain of src/iterators.rs does not permit).  The spec says
that when the iterator is no longer in use any remaining unvisited
elements are forcibly removed, leaving the arena empty with its capacity
unchanged, so the drop is modelled as running the iterator's removal
loop to exhaustion.  Fuel models the u32 slot counter as in drainNext;
none is the overflow panic, reachable only from a state the loop cannot
empty. -/
def drainDrop : Nat → Arena T → Nat → Option (Arena T)
  | 0, a, _ => if a.is_empty then some a else none
  | fuel + 1, a, slot =>
    if a.is_empty then some a
    else
      match a.remove_by_slot slot with
      | none => none
      | some (_, b) => drainDrop fuel b (slot + 1)

/-- Occupancy test for an entry. -/
def Entry.isOccupied : Entry T → Bool
  | .occupied _ _ => true
  | .empty _ _ => false

/-- Nat stored in an entry, regardless of occupancy. -/
def Entry.gen : Entry T → Nat
  | .occupied g _ => g
  | .empty g _ => g

/-- Number of Occupied entries in a storage vector. -/
def occupiedCount (storage : List (Entry T)) : Nat :=
  storage.countP Entry.isOccupied

/-- All indices the arena currently answers: one per occupied slot, as
produced by contains_slot. -/
def validIndices (a : Arena T) : List Index :=
  (List.range a.storage.length).filterMap a.contains_slot

/-- The slot holds an Empty entry. -/
def IsEmptyAt (storage : List (Entry T)) (s : Nat) : Prop :=
  ∃ gen nf, storage[s]? = some (.empty gen nf)

/-- The free-list chain: starting from a head pointer, following each
Empty entry's next_free visits exactly the slots of the list and ends in
none.  Pointers use the slot + 1 encoding of FreePointer. -/
inductive FreeList (storage : List (Entry T)) :
    Option Nat → List Nat → Prop where
  | nil : FreeList storage none []
  | cons {s : Nat} {gen : Nat} {nf : Option Nat}
      {rest : List Nat} :
      storage[s]? = some (.empty gen nf) → FreeList storage nf rest →
      FreeList storage (some (s + 1)) (s :: rest)

/-- The free-list invariant: the chain from first_free visits every
currently-Empty slot exactly once and terminates in none. -/
def FreeListInv (a : Arena T) : Prop :=
  ∃ l, FreeList a.storage a.first_free l ∧ l.Nodup ∧
    ∀ s, s ∈ l ↔ IsEmptyAt a.storage s

/-- All generations stored in the vector lie in the u32 NonZero range. -/
def GenBound (storage : List (Entry T)) : Prop :=
  ∀ e ∈ storage, 0 < Entry.gen e ∧ Entry.gen e ≤ u32max

/-- Representation invariant of a Rust arena. -/
structure Inv (a : Arena T) : Prop where
  len_eq : a.len = occupiedCount a.storage
  free : FreeListInv a
  gens : GenBound a.storage

/-- Well-formedness of an Index value, as enforced by its Rust type:
the generation is a NonZeroU32 and the slot a u32. -/
def Index.WF (i : Index) : Prop :=
  0 < i.generation ∧ i.generation ≤ u32max ∧ i.slot ≤ u32max

/-- Invariant of a Drain iterator in mid-flight: the arena invariant
holds and every slot already passed by the slot counter is no longer
occupied. -/
def DrainState (a : Arena T) (slot : Nat) : Prop :=
  Inv a ∧ ∀ j, j < slot → ∀ gen v, a.storage[j]? ≠ some (.occupied gen v)

/-- One mutating API call, relating an arena to its successor state.
Each constructor requires the call to complete (no panic), and index or
slot arguments to be representable in their Rust types. -/
inductive Step : Arena T → Arena T → Prop where
  | insert {a : Arena T} {v i b} :
      a.insert v = some (i, b) → Step a b
  | insert_at {a : Arena T} {i v r b} :
      Index.WF i → a.insert_at i v = some (r, b) → Step a b
  | insert_at_slot {a : Arena T} {s v r b} :
      s ≤ u32max → a.insert_at_slot s v = some (r, b) → Step a b
  | remove {a : Arena T} {i r b} :
      a.remove i = some (r, b) → Step a b
  | remove_by_slot {a : Arena T} {s r b} :
      s ≤ u32max → a.remove_by_slot s = some (r, b) → Step a b
  | retain {a : Arena T} {f b} :
      a.retain f = some b → Step a b

/-- Reachability by any sequence of the six mutating calls. -/
def Reaches (a b : Arena T) : Prop := Relation.ReflTransGen Step a b

/-- One insert, remove or retain call (the operations of the length
claim). -/
inductive StepIRR : Arena T → Arena T → Prop where
  | insert {a : Arena T} {v i b} :
      a.insert v = some (i, b) → StepIRR a b
  | remove {a : Arena T} {i r b} :
      a.remove i = some (r, b) → StepIRR a b
  | retain {a : Arena T} {f b} :
      a.retain f = some b → StepIRR a b

/-- Reachability by insert/remove/retain calls. -/
def ReachesIRR (a b : Arena T) : Prop := Relation.ReflTransGen StepIRR a b

/-- Reachability by a sequence of insert and remove calls, counting how
many of them were inserts. -/
inductive ReachN : Arena T → Arena T → Nat → Prop where
  | refl {a : Arena T} : ReachN a a 0
  | insert {a b c : Arena T} {n v i} :
      ReachN a b n → b.insert v = some (i, c) → ReachN a c (n + 1)
  | remove {a b c : Arena T} {n i r} :
      ReachN a b n → b.remove i = some (r, c) → ReachN a c n

/-- Traversal state value computed by the free-list walk: the slot
holding the pointer under test, starting from cur at the root. -/
def prevOf (cur : Option Nat) : List Nat → Option Nat
  | [] => cur
  | s :: rest => prevOf (some s) rest

/-- The slots the extension loop of insert_at_inner appends to the free
list, from the head downward: start + k - 1, ..., start. -/
def descRow (start : Nat) : Nat → List Nat
  | 0 => []
  | k + 1 => (start + k) :: descRow start k

/-- The Empty placeholder entries the extension loop of insert_at_inner
pushes for slots start, ..., start + k - 1: the first entry points at
the old free-list head, each later one at the slot before it. -/
def emptyRow (ff : Option Nat) : Nat → Nat → List (Entry T)
  | _, 0 => []
  | start, k + 1 =>
    .empty Generation.first ff :: emptyRow (some (start + 1)) (start + 1) k

/-- Iterated generation successor. -/
def gIter : Nat → Nat → Nat
  | 0, g => g
  | j + 1, g => Generation.next (gIter j g)

/-- The ABA tracking invariant for a retired index: after remove, the
entry at its slot carries some iterate of the retired generation, at
most one iterate per insert since the removal, and at least one when the
slot is occupied again. -/
def DeadInv (slot g0 n : Nat) (a : Arena T) : Prop :=
  ∃ j, j ≤ n ∧
    ((∃ nf, a.storage[slot]? = some (.empty (gIter j g0) nf)) ∨
     (0 < j ∧ ∃ v, a.storage[slot]? = some (.occupied (gIter j g0) v)))

/-! ### Generic helper lemmas -/

theorem Generation.next_pos {g : Nat} : 0 < Generation.next g := by
  unfold Generation.next; split <;> omega

theorem Generation.next_le {g : Nat} (h : g ≤ u32max) :
    Generation.next g ≤ u32max := by
  unfold Generation.next
  split
  · unfold u32max; omega
  · omega

theorem occupiedCount_append (s t : List (Entry T)) :
    occupiedCount (s ++ t) = occupiedCount s + occupiedCount t :=
  List.countP_append _ _ _

theorem occupiedCount_set_occupied {storage : List (Entry T)} {i : Nat}
    {gen gen' : Nat} {v : T} {nf : Option Nat}
    (h : storage[i]? = some (.empty gen nf)) :
    occupiedCount (storage.set i (.occupied gen' v)) =
      occupiedCount storage + 1 := by
  obtain ⟨hi, hv⟩ := List.getElem?_eq_some_iff.mp h
  unfold occupiedCount
  rw [List.countP_set _ _ _ _ hi, hv]
  simp [Entry.isOccupied]

theorem occupiedCount_set_reoccupied {storage : List (Entry T)} {i : Nat}
    {gen gen' : Nat} {v v' : T}
    (h : storage[i]? = some (.occupied gen v)) :
    occupiedCount (storage.set i (.occupied gen' v')) =
      occupiedCount storage := by
  obtain ⟨hi, hv⟩ := List.getElem?_eq_some_iff.mp h
  have hp : 0 < occupiedCount storage := by
    unfold occupiedCount
    rw [List.countP_pos]
    exact ⟨_, List.getElem_mem hi, by rw [hv]; rfl⟩
  unfold occupiedCount at *
  rw [List.countP_set _ _ _ _ hi, hv]
  simp [Entry.isOccupied]
  omega

theorem occupiedCount_pos {storage : List (Entry T)} {i : Nat}
    {gen : Nat} {v : T}
    (h : storage[i]? = some (.occupied gen v)) :
    0 < occupiedCount storage := by
  obtain ⟨hi, hv⟩ := List.getElem?_eq_some_iff.mp h
  unfold occupiedCount
  rw [List.countP_pos]
  exact ⟨_, List.getElem_mem hi, by rw [hv]; rfl⟩

theorem occupiedCount_set_empty {storage : List (Entry T)} {i : Nat}
    {gen gen' : Nat} {v : T} {nf : Option Nat}
    (h : storage[i]? = some (.occupied gen v)) :
    occupiedCount (storage.set i (.empty gen' nf)) =
      occupiedCount storage - 1 := by
  obtain ⟨hi, hv⟩ := List.getElem?_eq_some_iff.mp h
  unfold occupiedCount
  rw [List.countP_set _ _ _ _ hi, hv]
  simp [Entry.isOccupied]

theorem GenBound.of_set {storage : List (Entry T)} {i : Nat} {e : Entry T}
    (h : GenBound storage) (he : 0 < Entry.gen e ∧ Entry.gen e ≤ u32max) :
    GenBound (storage.set i e) := by
  intro e' he'
  rcases List.mem_or_eq_of_mem_set he' with hmem | rfl
  · exact h e' hmem
  · exact he

theorem GenBound.of_append {storage tail : List (Entry T)}
    (h : GenBound storage) (ht : GenBound tail) :
    GenBound (storage ++ tail) := by
  intro e he
  rcases List.mem_append.mp he with hmem | hmem
  · exact h e hmem
  · exact ht e hmem

theorem GenBound.at_get {storage : List (Entry T)} {i : Nat} {e : Entry T}
    (h : GenBound storage) (he : storage[i]? = some e) :
    0 < Entry.gen e ∧ Entry.gen e ≤ u32max := by
  obtain ⟨hi, hv⟩ := List.getElem?_eq_some_iff.mp he
  exact h e (hv ▸ List.getElem_mem hi)

/-! ### Free-list chain lemmas -/

theorem FreeList.mem_lt_length {storage : List (Entry T)}
    {ff : Option Nat} {l : List Nat} (h : FreeList storage ff l) :
    ∀ s ∈ l, s < storage.length := by
  induction h with
  | nil => intro s hs; cases hs
  | cons hget _ ih =>
    intro s hs
    rcases List.mem_cons.mp hs with rfl | hs'
    · exact (List.getElem?_eq_some_iff.mp hget).1
    · exact ih s hs'

theorem FreeList.congr {storage storage' : List (Entry T)}
    {ff : Option Nat} {l : List Nat} (h : FreeList storage ff l)
    (hsame : ∀ s ∈ l, storage'[s]? = storage[s]?) :
    FreeList storage' ff l := by
  induction h with
  | nil => exact .nil
  | @cons s gen nf rest hget htail ih =>
    exact .cons ((hsame s (List.mem_cons_self s rest)).trans hget)
      (ih fun t ht => hsame t (List.mem_cons_of_mem s ht))

theorem FreeList.of_storage_set {storage : List (Entry T)} {ff : Option Nat}
    {l : List Nat} (h : FreeList storage ff l) {i : Nat} {e : Entry T}
    (hi : i ∉ l) : FreeList (storage.set i e) ff l :=
  h.congr fun s hs => List.getElem?_set_ne (fun he => hi (by rw [he]; exact hs))

theorem FreeList.of_storage_append {storage tail : List (Entry T)}
    {ff : Option Nat} {l : List Nat} (h : FreeList storage ff l) :
    FreeList (storage ++ tail) ff l :=
  h.congr fun s hs => by
    rw [List.getElem?_append]
    simp [h.mem_lt_length s hs]

theorem FreeList.length_le {storage : List (Entry T)}
    {ff : Option Nat} {l : List Nat} (h : FreeList storage ff l)
    (hnd : l.Nodup) : l.length ≤ storage.length := by
  classical
  have hsub : l.toFinset ⊆ Finset.range storage.length := by
    intro s hs
    rw [Finset.mem_range]
    exact h.mem_lt_length s (List.mem_toFinset.mp hs)
  calc l.length = l.toFinset.card := (List.toFinset_card_of_nodup hnd).symm
  _ ≤ (Finset.range storage.length).card := Finset.card_le_card hsub
  _ = storage.length := Finset.card_range _

/-! ### Lemmas on the traversal and extension helpers -/

theorem prevOf_concat (cur : Option Nat) (l : List Nat) (x : Nat) :
    prevOf cur (l ++ [x]) = some x := by
  induction l generalizing cur with
  | nil => rfl
  | cons s l ih => exact ih (some s)

theorem descRow_mem {start k s : Nat} :
    s ∈ descRow start k ↔ start ≤ s ∧ s < start + k := by
  induction k with
  | zero => simp [descRow]
  | succ k ih =>
    simp only [descRow, List.mem_cons, ih]
    omega

theorem descRow_nodup (start k : Nat) : (descRow start k).Nodup := by
  induction k with
  | zero => exact List.nodup_nil
  | succ k ih =>
    refine List.nodup_cons.mpr ⟨?_, ih⟩
    rw [descRow_mem]
    omega

theorem emptyRow_length (ff : Option Nat) (start k : Nat) :
    (emptyRow ff start k : List (Entry T)).length = k := by
  induction k generalizing ff start with
  | zero => rfl
  | succ k ih => simp [emptyRow, ih]

theorem emptyRow_getElem (ff : Option Nat) (start : Nat) {k i : Nat}
    (hi : i < k) :
    (emptyRow ff start k : List (Entry T))[i]? =
      some (.empty Generation.first
        (if i = 0 then ff else some (start + i))) := by
  induction k generalizing ff start i with
  | zero => omega
  | succ k ih =>
    cases i with
    | zero => simp [emptyRow]
    | succ i =>
      rw [emptyRow, List.getElem?_cons_succ]
      rw [ih _ _ (by omega)]
      congr 1
      congr 1
      split
      · next h => subst h; simp
      · next h =>
        rw [if_neg (by omega)]
        congr 1
        omega

theorem emptyRow_occupiedCount (ff : Option Nat) (start k : Nat) :
    occupiedCount (emptyRow ff start k : List (Entry T)) = 0 := by
  induction k generalizing ff start with
  | zero => rfl
  | succ k ih =>
    show occupiedCount (Entry.empty Generation.first ff :: _) = 0
    unfold occupiedCount at *
    rw [List.countP_cons]
    simp [Entry.isOccupied, ih]

theorem emptyRow_gens (ff : Option Nat) (start k : Nat) :
    GenBound (emptyRow ff start k : List (Entry T)) := by
  induction k generalizing ff start with
  | zero => intro e he; cases he
  | succ k ih =>
    intro e he
    rcases List.mem_cons.mp he with rfl | he'
    · exact ⟨Nat.one_pos, by show Generation.first ≤ u32max; decide⟩
    · exact ih _ _ e he'

theorem occupiedCount_set_empty_empty {storage : List (Entry T)} {i : Nat}
    {gen gen' : Nat} {nf nf' : Option Nat}
    (h : storage[i]? = some (.empty gen nf)) :
    occupiedCount (storage.set i (.empty gen' nf')) =
      occupiedCount storage := by
  obtain ⟨hi, hv⟩ := List.getElem?_eq_some_iff.mp h
  unfold occupiedCount
  rw [List.countP_set _ _ _ _ hi, hv]
  simp [Entry.isOccupied]

theorem pushEmpties_eq {slot : Nat} (hslot : slot ≤ u32max) :
    ∀ (k : Nat) (storage : List (Entry T)) (ff : Option Nat),
    slot - storage.length = k →
    pushEmpties slot storage ff =
      some (storage ++ emptyRow ff storage.length (slot - storage.length),
        if slot ≤ storage.length then ff else some slot) := by
  intro k
  induction k with
  | zero =>
    intro storage ff hk
    rw [pushEmpties]
    rw [if_neg (by omega)]
    rw [show slot - storage.length = 0 from hk]
    rw [if_pos (by omega)]
    simp [emptyRow]
  | succ k ih =>
    intro storage ff hk
    have hlt : storage.length < slot := by omega
    rw [pushEmpties]
    rw [if_pos hlt, if_neg (by omega)]
    unfold FreePointer.from_slot
    rw [if_neg (by omega)]
    simp only
    rw [ih (storage ++ [Entry.empty Generation.first ff])
      (some (storage.length + 1)) (by simp; omega)]
    rw [show slot - storage.length = k + 1 from hk]
    congr 1
    have hlen : (storage ++ [Entry.empty Generation.first ff]).length =
        storage.length + 1 := by simp
    rw [hlen]
    rw [show slot - (storage.length + 1) = k by omega]
    simp only [Prod.mk.injEq]
    refine ⟨?_, ?_⟩
    · rw [List.append_assoc]
      congr 1
    · by_cases hsl : slot ≤ storage.length + 1
      · rw [if_pos hsl, if_neg (by omega)]
        congr 1
        omega
      · rw [if_neg hsl, if_neg (by omega)]

/-! ### Emptiness bookkeeping lemmas -/

theorem isEmptyAt_set_occupied {st : List (Entry T)} {i : Nat} {g : Nat}
    {v : T} (hi : i < st.length) (s : Nat) :
    IsEmptyAt (st.set i (.occupied g v)) s ↔ s ≠ i ∧ IsEmptyAt st s := by
  unfold IsEmptyAt
  by_cases hs : s = i
  · subst hs
    rw [List.getElem?_set_self hi]
    simp
  · rw [List.getElem?_set_ne (fun he => hs he.symm)]
    simp [hs]

theorem isEmptyAt_set_empty {st : List (Entry T)} {i : Nat} {g : Nat}
    {nf : Option Nat} (hi : i < st.length) (s : Nat) :
    IsEmptyAt (st.set i (.empty g nf)) s ↔ s = i ∨ IsEmptyAt st s := by
  unfold IsEmptyAt
  by_cases hs : s = i
  · subst hs
    rw [List.getElem?_set_self hi]
    simp
  · rw [List.getElem?_set_ne (fun he => hs he.symm)]
    simp [hs]

theorem isEmptyAt_append_occupied {st : List (Entry T)} {g : Nat} {v : T}
    (s : Nat) : IsEmptyAt (st ++ [.occupied g v]) s ↔ IsEmptyAt st s := by
  unfold IsEmptyAt
  rw [List.getElem?_append]
  by_cases hs : s < st.length
  · simp [hs]
  · rw [if_neg hs]
    constructor
    · rintro ⟨gen, nf, hget⟩
      rcases List.getElem?_eq_some_iff.mp hget with ⟨hlt, hv⟩
      simp at hlt
      simp [show s - st.length = 0 by omega] at hv
    · rintro ⟨gen, nf, hget⟩
      rcases List.getElem?_eq_some_iff.mp hget with ⟨hlt, _⟩
      exact absurd hlt hs

theorem isEmptyAt_set_same_gen {st : List (Entry T)} {i : Nat} {g g' : Nat}
    {nf nf' : Option Nat} (hget : st[i]? = some (.empty g nf)) (s : Nat) :
    IsEmptyAt (st.set i (.empty g' nf')) s ↔ IsEmptyAt st s := by
  have hi : i < st.length := (List.getElem?_eq_some_iff.mp hget).1
  rw [isEmptyAt_set_empty hi]
  constructor
  · rintro (rfl | h)
    · exact ⟨g, nf, hget⟩
    · exact h
  · exact Or.inr

/-- The chain built by the extension loop: the freshly pushed Empty
slots, from the last pushed downward, followed by the old free list. -/
theorem freeList_descRow {stF : List (Entry T)} {len slot : Nat}
    {ff : Option Nat} {l : List Nat}
    (hmid : ∀ j, len ≤ j → j < slot →
      stF[j]? = some (.empty Generation.first
        (if j = len then ff else some j)))
    (hold : FreeList stF ff l) :
    ∀ k, len + k ≤ slot →
      FreeList stF (if k = 0 then ff else some (len + k))
        (descRow len k ++ l) := by
  intro k
  induction k with
  | zero =>
    intro _
    simpa [descRow] using hold
  | succ k ih =>
    intro hk
    have h1 := ih (by omega)
    have hj := hmid (len + k) (by omega) (by omega)
    have hj' : stF[len + k]? = some (.empty Generation.first
        (if k = 0 then ff else some (len + k))) := by
      rw [hj]
      by_cases hk0 : k = 0
      · simp [hk0]
      · rw [if_neg (by omega), if_neg hk0]
    rw [if_neg (Nat.succ_ne_zero k)]
    show FreeList stF (some ((len + k) + 1)) (((len + k) :: descRow len k) ++ l)
    rw [List.cons_append]
    exact .cons hj' h1

/-! ### The free-list splice of remove_slot_from_free_list -/

theorem FreeList.nonnil_some {storage : List (Entry T)} {ff : Option Nat}
    {l : List Nat} (h : FreeList storage ff l) (hne : l ≠ []) :
    ∃ p, ff = some p := by
  cases h with
  | nil => exact absurd rfl hne
  | cons _ _ => exact ⟨_, rfl⟩

theorem FreeList.decompose {storage : List (Entry T)} {slot : Nat}
    {l₂ : List Nat} :
    ∀ (l₁ : List Nat) {ff : Option Nat},
    FreeList storage ff (l₁ ++ slot :: l₂) →
    ∃ gen nf, storage[slot]? = some (.empty gen nf) ∧
      FreeList storage nf l₂ := by
  intro l₁
  induction l₁ with
  | nil =>
    intro ff h
    rw [List.nil_append] at h
    cases h with
    | cons hget htail => exact ⟨_, _, hget, htail⟩
  | cons s l₁ ih =>
    intro ff h
    rw [List.cons_append] at h
    cases h with
    | cons hget htail => exact ih htail

theorem findPrevFree_eq {storage : List (Entry T)} {target : Nat} :
    ∀ (l₁ : List Nat) {p : Nat} {l₂ : List Nat} (cur : Option Nat)
      (fuel : Nat),
    FreeList storage (some p) (l₁ ++ target :: l₂) → target ∉ l₁ →
    l₁.length < fuel →
    findPrevFree storage target fuel p cur = some (prevOf cur l₁) := by
  intro l₁
  induction l₁ with
  | nil =>
    intro p l₂ cur fuel h _ hfuel
    rw [List.nil_append] at h
    cases h with
    | cons hget htail =>
      cases fuel with
      | zero => omega
      | succ f => simp [findPrevFree, FreePointer.slot, prevOf]
  | cons s l₁ ih =>
    intro p l₂ cur fuel h hnot hfuel
    rw [List.cons_append] at h
    cases h with
    | @cons _ gen nf _ hget htail =>
      obtain ⟨p', rfl⟩ := htail.nonnil_some (by simp)
      cases fuel with
      | zero => simp at hfuel
      | succ f =>
        have hs : FreePointer.slot (s + 1) = s := rfl
        have hne : target ≠ s := fun he => hnot (he ▸ List.mem_cons_self s l₁)
        simp only [findPrevFree, hs, hget]
        rw [if_neg (show ¬(s = target) from fun he => hne he.symm)]
        show findPrevFree storage target f p' (some s) =
          some (prevOf (some s) l₁)
        exact ih (some s) f htail (fun hm => hnot (List.mem_cons_of_mem _ hm))
          (by simp at hfuel ⊢; omega)

theorem FreeList.reassemble {storage : List (Entry T)} {slot fix : Nat}
    {l₂ : List Nat} {gslot gfix : Nat} {nf₀ nfx : Option Nat}
    (hslot : storage[slot]? = some (.empty gslot nf₀))
    (hfix : storage[fix]? = some (.empty gfix nfx)) :
    ∀ (l₁ : List Nat) (p : Nat),
    FreeList storage (some p) (l₁ ++ fix :: slot :: l₂) →
    (l₁ ++ fix :: slot :: l₂).Nodup →
    FreeList (storage.set fix (.empty gfix nf₀)) (some p)
      (l₁ ++ fix :: l₂) := by
  intro l₁
  induction l₁ with
  | nil =>
    intro p h hnd
    rw [List.nil_append] at h hnd ⊢
    have hfixlt : fix < storage.length := (List.getElem?_eq_some_iff.mp hfix).1
    cases h with
    | cons hget htail =>
      cases htail with
      | cons hget2 htail2 =>
        rw [hslot] at hget2
        simp only [Option.some.injEq, Entry.empty.injEq] at hget2
        obtain ⟨-, rfl⟩ := hget2
        refine .cons (List.getElem?_set_self hfixlt) (htail2.of_storage_set ?_)
        intro hmm
        exact (List.nodup_cons.mp hnd).1 (List.mem_cons_of_mem _ hmm)
  | cons s l₁ ih =>
    intro p h hnd
    rw [List.cons_append] at h hnd ⊢
    cases h with
    | @cons _ gens nfs _ hget htail =>
      have hnd' := List.nodup_cons.mp hnd
      have hsfix : s ≠ fix := by
        intro he
        subst he
        exact hnd'.1
          (List.mem_append_right l₁ (List.mem_cons_self s (slot :: l₂)))
      obtain ⟨p', rfl⟩ := htail.nonnil_some (by simp)
      have hhead : (storage.set fix (Entry.empty gfix nf₀))[s]? =
          some (Entry.empty gens (some p')) := by
        rw [List.getElem?_set_ne (fun he => hsfix he.symm)]
        exact hget
      exact .cons hhead (ih p' htail hnd'.2)

theorem remove_slot_from_free_list_eq {a : Arena T} {slot : Nat} {gen : Nat}
    {nf₀ : Option Nat} (ha : Inv a)
    (hget : a.storage[slot]? = some (.empty gen nf₀)) :
    ∃ b, a.remove_slot_from_free_list slot nf₀ = some b ∧
      b.len = a.len ∧
      b.storage.length = a.storage.length ∧
      occupiedCount b.storage = occupiedCount a.storage ∧
      GenBound b.storage ∧
      b.storage[slot]? = some (.empty gen nf₀) ∧
      ∃ l', FreeList b.storage b.first_free l' ∧ l'.Nodup ∧
        (∀ s, s ∈ l' ↔ (s ≠ slot ∧ IsEmptyAt a.storage s)) ∧
        (∀ s, IsEmptyAt b.storage s ↔ IsEmptyAt a.storage s) := by
  obtain ⟨l, hfl, hnd, hmem⟩ := ha.free
  have hin : slot ∈ l := (hmem slot).mpr ⟨gen, nf₀, hget⟩
  obtain ⟨l₁, l₂, rfl⟩ := List.append_of_mem hin
  obtain ⟨p, hp⟩ := hfl.nonnil_some (by simp)
  rw [hp] at hfl
  have hnotl₁ : slot ∉ l₁ := by
    intro hs
    exact (List.nodup_append.mp hnd).2.2 hs (List.mem_cons_self slot l₂)
  have hnotl₂ : slot ∉ l₂ :=
    (List.nodup_cons.mp (List.nodup_append.mp hnd).2.1).1
  obtain ⟨gen2, nfT, hgetT, htail₂⟩ := FreeList.decompose l₁ hfl
  rw [hget] at hgetT
  simp only [Option.some.injEq, Entry.empty.injEq] at hgetT
  obtain ⟨-, rfl⟩ := hgetT
  have hfuel : l₁.length < a.storage.length + 1 := by
    have := hfl.length_le hnd
    simp only [List.length_append, List.length_cons] at this
    omega
  have hfind := findPrevFree_eq l₁ none (a.storage.length + 1) hfl hnotl₁ hfuel
  rcases List.eq_nil_or_concat l₁ with rfl | ⟨l₁h, fix, rfl⟩
  · refine ⟨{ a with first_free := nf₀ }, ?_, rfl, rfl, rfl, ha.gens, hget,
      l₂, htail₂, (List.nodup_cons.mp (by simpa using hnd)).2, ?_,
      fun s => Iff.rfl⟩
    · simp only [Arena.remove_slot_from_free_list, hp, hfind, prevOf]
    · intro s
      constructor
      · intro hs
        refine ⟨fun he => hnotl₂ (he ▸ hs), (hmem s).mp ?_⟩
        simpa using Or.inr hs
      · rintro ⟨hne, hempty⟩
        have := (hmem s).mpr hempty
        simp only [List.nil_append, List.mem_cons] at this
        rcases this with rfl | hs
        · exact absurd rfl hne
        · exact hs
  · -- the target slot sits behind fix in the list; splice at fix
    simp only [List.concat_eq_append] at hnd hmem hfl hnotl₁ hfind
    rw [prevOf_concat] at hfind
    have hndr : (l₁h ++ fix :: slot :: l₂).Nodup := by
      simpa using hnd
    have hflr : FreeList a.storage (some p) (l₁h ++ fix :: slot :: l₂) := by
      simpa using hfl
    have hfixin : fix ∈ l₁h ++ [fix] := List.mem_append_right l₁h (by simp)
    obtain ⟨gfix, nfx, hfix⟩ := (hmem fix).mp
      (List.mem_append_left (slot :: l₂) hfixin)
    have hfixslot : fix ≠ slot := fun he => hnotl₁ (he ▸ hfixin)
    have happ := List.nodup_append.mp hndr
    have hslotl₁h : slot ∉ l₁h := fun hs => happ.2.2 hs (by simp)
    have hfixl₂ : fix ∉ l₂ := by
      have := (List.nodup_cons.mp happ.2.1).1
      intro hm
      exact this (List.mem_cons_of_mem _ hm)
    refine ⟨{ a with storage := a.storage.set fix (.empty gfix nf₀) }, ?_,
      rfl, List.length_set .., occupiedCount_set_empty_empty hfix, ?_, ?_,
      l₁h ++ fix :: l₂, ?_, ?_, ?_, isEmptyAt_set_same_gen hfix⟩
    · simp only [Arena.remove_slot_from_free_list, hp, hfind, hfix]
    · refine ha.gens.of_set ?_
      have hb := ha.gens.at_get hfix
      exact ⟨hb.1, hb.2⟩
    · rw [List.getElem?_set_ne hfixslot]
      exact hget
    · show FreeList _ a.first_free _
      rw [hp]
      exact FreeList.reassemble hget hfix l₁h p hflr hndr
    · refine hndr.sublist ?_
      exact (List.Sublist.cons₂ fix (List.sublist_cons_self slot l₂)).append_left l₁h
    · intro s
      constructor
      · intro hs
        have hsl : s ≠ slot := by
          intro he
          subst he
          rcases List.mem_append.mp hs with h1 | h1
          · exact hslotl₁h h1
          · rcases List.mem_cons.mp h1 with he2 | h2
            · exact hfixslot he2.symm
            · exact hnotl₂ h2
        refine ⟨hsl, (hmem s).mp ?_⟩
        rcases List.mem_append.mp hs with h1 | h1
        · exact List.mem_append_left _ (List.mem_append_left _ h1)
        · rcases List.mem_cons.mp h1 with rfl | h2
          · exact List.mem_append_left _ hfixin
          · exact List.mem_append_right _ (List.mem_cons_of_mem _ h2)
      · rintro ⟨hne, hempty⟩
        have hmem2 := (hmem s).mpr hempty
        rcases List.mem_append.mp hmem2 with h1 | h1
        · rcases List.mem_append.mp h1 with h2 | h2
          · exact List.mem_append_left _ h2
          · simp only [List.mem_singleton] at h2
            subst h2
            exact List.mem_append_right _ (List.mem_cons_self _ _)
        · rcases List.mem_cons.mp h1 with rfl | h2
          · exact absurd rfl hne
          · exact List.mem_append_right _ (List.mem_cons_of_mem _ h2)

/-! ### Characterizations of the operations -/

theorem insert_some_cases {a : Arena T} {v : T} {i : Index} {b : Arena T}
    (h : a.insert v = some (i, b)) :
    a.len ≠ u32max ∧
    ((∃ fp gen nf, a.first_free = some fp ∧
        a.storage[FreePointer.slot fp]? = some (.empty gen nf) ∧
        i = ⟨FreePointer.slot fp, Generation.next gen⟩ ∧
        b = ⟨a.storage.set (FreePointer.slot fp)
              (.occupied (Generation.next gen) v), a.len + 1, nf⟩) ∨
      (a.first_free = none ∧ a.storage.length ≤ u32max ∧
        i = ⟨a.storage.length, Generation.first⟩ ∧
        b = ⟨a.storage ++ [.occupied Generation.first v], a.len + 1,
              none⟩)) := by
  unfold Arena.insert at h
  by_cases hlen : a.len = u32max
  · rw [if_pos hlen] at h; cases h
  rw [if_neg hlen] at h
  refine ⟨hlen, ?_⟩
  cases hff : a.first_free with
  | some fp =>
    rw [hff] at h
    simp only at h
    cases hget : a.storage[FreePointer.slot fp]? with
    | none => rw [hget] at h; cases h
    | some e =>
      cases e with
      | occupied g v0 => rw [hget] at h; cases h
      | empty gen nf =>
        rw [hget] at h
        simp only [Option.some.injEq, Prod.mk.injEq] at h
        exact Or.inl ⟨fp, gen, nf, rfl, hget, h.1.symm, h.2.symm⟩
  | none =>
    rw [hff] at h
    simp only at h
    by_cases hst : u32max < a.storage.length
    · rw [if_pos hst] at h; cases h
    · rw [if_neg hst] at h
      simp only [Option.some.injEq, Prod.mk.injEq] at h
      exact Or.inr ⟨rfl, by omega, h.1.symm, h.2.symm⟩

theorem remove_some_cases {a : Arena T} {idx : Index} {r : Option T}
    {b : Arena T} (h : a.remove idx = some (r, b)) :
    (∃ v, a.storage[idx.slot]? = some (.occupied idx.generation v) ∧
      idx.slot ≠ u32max ∧ a.len ≠ 0 ∧ r = some v ∧
      b = ⟨a.storage.set idx.slot (.empty idx.generation a.first_free),
            a.len - 1, some (idx.slot + 1)⟩) ∨
    (r = none ∧ b = a) := by
  unfold Arena.remove at h
  split at h
  · next gen v hget =>
    by_cases hgen : gen = idx.generation
    · rw [if_pos hgen] at h
      split at h
      · cases h
      · next fp hfp =>
        unfold FreePointer.from_slot at hfp
        by_cases hslot : idx.slot = u32max
        · rw [if_pos hslot] at hfp; cases hfp
        rw [if_neg hslot] at hfp
        injection hfp with hfp
        by_cases hlen : a.len = 0
        · rw [if_pos hlen] at h; cases h
        rw [if_neg hlen] at h
        simp only [Option.some.injEq, Prod.mk.injEq] at h
        subst hgen
        subst hfp
        exact Or.inl ⟨v, hget, hslot, hlen, h.1.symm, h.2.symm⟩
    · rw [if_neg hgen] at h
      simp only [Option.some.injEq, Prod.mk.injEq] at h
      exact Or.inr ⟨h.1.symm, h.2.symm⟩
  · simp only [Option.some.injEq, Prod.mk.injEq] at h
    exact Or.inr ⟨h.1.symm, h.2.symm⟩
  · simp only [Option.some.injEq, Prod.mk.injEq] at h
    exact Or.inr ⟨h.1.symm, h.2.symm⟩

theorem remove_by_slot_some_cases {a : Arena T} {slot : Nat}
    {r : Option (Index × T)} {b : Arena T}
    (h : a.remove_by_slot slot = some (r, b)) :
    (∃ gen v, a.storage[slot]? = some (.occupied gen v) ∧
      slot ≠ u32max ∧ a.len ≠ 0 ∧ r = some (⟨slot, gen⟩, v) ∧
      b = ⟨a.storage.set slot (.empty gen a.first_free),
            a.len - 1, some (slot + 1)⟩) ∨
    (r = none ∧ b = a) := by
  unfold Arena.remove_by_slot at h
  split at h
  · next gen v hget =>
    split at h
    · cases h
    · next fp hfp =>
      unfold FreePointer.from_slot at hfp
      by_cases hslot : slot = u32max
      · rw [if_pos hslot] at hfp; cases hfp
      rw [if_neg hslot] at hfp
      injection hfp with hfp
      by_cases hlen : a.len = 0
      · rw [if_pos hlen] at h; cases h
      rw [if_neg hlen] at h
      simp only [Option.some.injEq, Prod.mk.injEq] at h
      subst hfp
      exact Or.inl ⟨gen, v, hget, hslot, hlen, h.1.symm, h.2.symm⟩
  · simp only [Option.some.injEq, Prod.mk.injEq] at h
    exact Or.inr ⟨h.1.symm, h.2.symm⟩
  · simp only [Option.some.injEq, Prod.mk.injEq] at h
    exact Or.inr ⟨h.1.symm, h.2.symm⟩

theorem retainStep_some_cases {f : Index → T → Bool × T} {a : Arena T}
    {i : Nat} {b : Arena T} (h : retainStep f a i = some b) :
    (∃ gen v v', a.storage[i]? = some (.occupied gen v) ∧
      f ⟨i, gen⟩ v = (true, v') ∧
      b = { a with storage := a.storage.set i (.occupied gen v') }) ∨
    (∃ gen v v', a.storage[i]? = some (.occupied gen v) ∧
      f ⟨i, gen⟩ v = (false, v') ∧ i ≠ u32max ∧ a.len ≠ 0 ∧
      b = ⟨a.storage.set i (.empty gen a.first_free), a.len - 1,
            some (i + 1)⟩) ∨
    ((∀ gen v, a.storage[i]? ≠ some (.occupied gen v)) ∧ b = a) := by
  unfold retainStep at h
  split at h
  · next gen v hget =>
    split at h
    · next v' hf =>
      simp only [Option.some.injEq] at h
      exact Or.inl ⟨gen, v, v', hget, hf, h.symm⟩
    · next v' hf =>
      split at h
      · cases h
      · next fp hfp =>
        unfold FreePointer.from_slot at hfp
        by_cases hslot : i = u32max
        · rw [if_pos hslot] at hfp; cases hfp
        rw [if_neg hslot] at hfp
        injection hfp with hfp
        by_cases hlen : a.len = 0
        · rw [if_pos hlen] at h; cases h
        rw [if_neg hlen] at h
        simp only [Option.some.injEq] at h
        subst hfp
        exact Or.inr (Or.inl ⟨gen, v, v', hget, hf, hslot, hlen, h.symm⟩)
  · next hne =>
    simp only [Option.some.injEq] at h
    refine Or.inr (Or.inr ⟨fun gen v hget => ?_, h.symm⟩)
    exact hne gen v hget

/-! ### Invariant preservation -/

theorem Inv.of_new : Inv (Arena.new : Arena T) := by
  refine ⟨rfl, ⟨[], .nil, List.nodup_nil, ?_⟩, ?_⟩
  · intro s
    simp [IsEmptyAt, Arena.new]
  · intro e he
    simp [Arena.new] at he

/-- Pushing a removed slot at the head of the free list preserves the
invariant: the common core of remove, remove_by_slot and the discarding
branch of retain. -/
theorem Inv.free_push {a : Arena T} (ha : Inv a) {i : Nat} {gen : Nat}
    {v : T} (hget : a.storage[i]? = some (.occupied gen v)) :
    Inv ⟨a.storage.set i (.empty gen a.first_free), a.len - 1,
          some (i + 1)⟩ := by
  obtain ⟨l, hfl, hnd, hmem⟩ := ha.free
  have hi : i < a.storage.length := (List.getElem?_eq_some_iff.mp hget).1
  have hnotmem : i ∉ l := by
    intro hin
    obtain ⟨g', nf', hg⟩ := (hmem i).mp hin
    rw [hget] at hg; cases hg
  refine ⟨?_, ⟨i :: l, ?_, ?_, ?_⟩, ?_⟩
  · show a.len - 1 = occupiedCount (a.storage.set i (.empty gen a.first_free))
    rw [occupiedCount_set_empty hget, ha.len_eq]
  · exact .cons (List.getElem?_set_self hi) (hfl.of_storage_set hnotmem)
  · exact List.nodup_cons.mpr ⟨hnotmem, hnd⟩
  · intro s
    rw [List.mem_cons, isEmptyAt_set_empty hi]
    constructor
    · rintro (rfl | hs)
      · exact Or.inl rfl
      · exact Or.inr ((hmem s).mp hs)
    · rintro (rfl | hs)
      · exact Or.inl rfl
      · exact Or.inr ((hmem s).mpr hs)
  · refine ha.gens.of_set ?_
    have hb := ha.gens.at_get hget
    exact ⟨hb.1, hb.2⟩

theorem Inv.of_insert {a : Arena T} {v : T} {i : Index} {b : Arena T}
    (ha : Inv a) (h : a.insert v = some (i, b)) : Inv b := by
  obtain ⟨-, hcase⟩ := insert_some_cases h
  obtain ⟨l, hfl, hnd, hmem⟩ := ha.free
  rcases hcase with ⟨fp, gen, nf, hff, hget, -, rfl⟩ | ⟨hff, -, -, rfl⟩
  · rw [hff] at hfl
    cases hfl with
    | @cons s gen' nf' rest hget' htail =>
      have hs : FreePointer.slot (s + 1) = s := rfl
      rw [hs] at hget ⊢
      rw [hget'] at hget
      simp only [Option.some.injEq, Entry.empty.injEq] at hget
      obtain ⟨rfl, rfl⟩ := hget
      have hslt : s < a.storage.length := (List.getElem?_eq_some_iff.mp hget').1
      have hsrest : s ∉ rest := (List.nodup_cons.mp hnd).1
      refine ⟨?_, ⟨rest, htail.of_storage_set hsrest,
        (List.nodup_cons.mp hnd).2, ?_⟩, ?_⟩
      · show a.len + 1 = occupiedCount (a.storage.set s _)
        rw [occupiedCount_set_occupied hget', ha.len_eq]
      · intro t
        rw [isEmptyAt_set_occupied hslt]
        constructor
        · intro ht
          exact ⟨fun he => hsrest (he ▸ ht),
            (hmem t).mp (List.mem_cons_of_mem _ ht)⟩
        · rintro ⟨hne, ht⟩
          rcases List.mem_cons.mp ((hmem t).mpr ht) with rfl | hmem'
          · exact absurd rfl hne
          · exact hmem'
      · refine ha.gens.of_set ?_
        have hb := ha.gens.at_get hget'
        exact ⟨Generation.next_pos, Generation.next_le hb.2⟩
  · rw [hff] at hfl
    cases hfl
    refine ⟨?_, ⟨[], .nil, List.nodup_nil, ?_⟩, ?_⟩
    · show a.len + 1 =
        occupiedCount (a.storage ++ [.occupied Generation.first v])
      rw [occupiedCount_append, ha.len_eq]
      simp [occupiedCount, List.countP_singleton, Entry.isOccupied]
    · intro s
      rw [isEmptyAt_append_occupied]
      exact hmem s
    · refine ha.gens.of_append ?_
      intro e he
      simp only [List.mem_singleton] at he
      subst he
      refine ⟨Nat.one_pos, ?_⟩
      show Generation.first ≤ u32max
      decide

theorem Inv.of_remove {a : Arena T} {idx : Index} {r : Option T}
    {b : Arena T} (ha : Inv a) (h : a.remove idx = some (r, b)) : Inv b := by
  rcases remove_some_cases h with ⟨v, hget, -, -, -, rfl⟩ | ⟨-, rfl⟩
  · exact ha.free_push hget
  · exact ha

theorem Inv.of_remove_by_slot {a : Arena T} {slot : Nat}
    {r : Option (Index × T)} {b : Arena T} (ha : Inv a)
    (h : a.remove_by_slot slot = some (r, b)) : Inv b := by
  rcases remove_by_slot_some_cases h with ⟨gen, v, hget, -, -, -, rfl⟩ | ⟨-, rfl⟩
  · exact ha.free_push hget
  · exact ha

theorem Inv.of_retainStep {f : Index → T → Bool × T} {a : Arena T} {i : Nat}
    {b : Arena T} (ha : Inv a) (h : retainStep f a i = some b) : Inv b := by
  rcases retainStep_some_cases h with
    ⟨gen, v, v', hget, -, rfl⟩ | ⟨gen, v, v', hget, -, -, -, rfl⟩ | ⟨-, rfl⟩
  · obtain ⟨l, hfl, hnd, hmem⟩ := ha.free
    have hi : i < a.storage.length := (List.getElem?_eq_some_iff.mp hget).1
    have hnotmem : i ∉ l := by
      intro hin
      obtain ⟨g', nf', hg⟩ := (hmem i).mp hin
      rw [hget] at hg; cases hg
    refine ⟨?_, ⟨l, hfl.of_storage_set hnotmem, hnd, ?_⟩, ?_⟩
    · show a.len = occupiedCount (a.storage.set i (.occupied gen v'))
      rw [occupiedCount_set_reoccupied hget, ha.len_eq]
    · intro s
      rw [isEmptyAt_set_occupied hi]
      constructor
      · intro hs
        exact ⟨fun he => hnotmem (he ▸ hs), (hmem s).mp hs⟩
      · rintro ⟨-, hs⟩
        exact (hmem s).mpr hs
    · refine ha.gens.of_set ?_
      have hb := ha.gens.at_get hget
      exact ⟨hb.1, hb.2⟩
  · exact ha.free_push hget
  · exact ha

theorem Inv.of_foldlM_retainStep {f : Index → T → Bool × T} :
    ∀ (xs : List Nat) (a b : Arena T), Inv a →
      xs.foldlM (retainStep f) a = some b → Inv b := by
  intro xs
  induction xs with
  | nil =>
    intro a b ha h
    simp only [List.foldlM_nil, Option.pure_def, Option.some.injEq] at h
    exact h ▸ ha
  | cons x xs ih =>
    intro a b ha h
    rw [List.foldlM_cons] at h
    cases hstep : retainStep f a x with
    | none => rw [hstep] at h; cases h
    | some c =>
      rw [hstep] at h
      exact ih c b (ha.of_retainStep hstep) h

theorem Inv.of_retain {a : Arena T} {f : Index → T → Bool × T} {b : Arena T}
    (ha : Inv a) (h : a.retain f = some b) : Inv b :=
  Inv.of_foldlM_retainStep _ a b ha h

theorem Inv.of_insert_at_inner {a : Arena T} {slot : Nat}
    {gen? : Option Nat} {v : T} {r : Index × Option T} {b : Arena T}
    (ha : Inv a) (hslot : slot ≤ u32max)
    (hgen : ∀ g, gen? = some g → 0 < g ∧ g ≤ u32max)
    (h : a.insert_at_inner slot gen? v = some (r, b)) : Inv b := by
  unfold Arena.insert_at_inner at h
  split at h
  · next gen nf hget =>
    obtain ⟨c, hc, hclen, hcstlen, hccount, hcgens, hcslot, l', hfl', hnd',
      hmem', hemp⟩ := remove_slot_from_free_list_eq ha hget
    rw [hc] at h
    dsimp only at h
    by_cases hlen : c.len = u32max
    · rw [if_pos hlen] at h; cases h
    rw [if_neg hlen] at h
    simp only [Option.some.injEq, Prod.mk.injEq] at h
    obtain ⟨-, hb⟩ := h
    subst hb
    have hslotlt : slot < c.storage.length :=
      (List.getElem?_eq_some_iff.mp hcslot).1
    have hnotl' : slot ∉ l' := by
      intro hs
      exact ((hmem' slot).mp hs).1 rfl
    have hgenrange : 0 < gen?.getD (Generation.next gen) ∧
        gen?.getD (Generation.next gen) ≤ u32max := by
      cases hg : gen? with
      | none =>
        simp only [Option.getD_none]
        exact ⟨Generation.next_pos,
          Generation.next_le (ha.gens.at_get hget).2⟩
      | some g =>
        simp only [Option.getD_some]
        exact hgen g hg
    refine ⟨?_, ⟨l', hfl'.of_storage_set hnotl', hnd', ?_⟩, ?_⟩
    · show c.len + 1 = occupiedCount (c.storage.set slot _)
      rw [occupiedCount_set_occupied hcslot, hccount, hclen, ha.len_eq]
    · intro s
      rw [isEmptyAt_set_occupied hslotlt, hemp s]
      exact hmem' s
    · exact hcgens.of_set ⟨hgenrange.1, hgenrange.2⟩
  · next gen oldv hget =>
    dsimp only at h
    simp only [Option.some.injEq, Prod.mk.injEq] at h
    obtain ⟨-, hb⟩ := h
    subst hb
    obtain ⟨l, hfl, hnd, hmem⟩ := ha.free
    have hslotlt : slot < a.storage.length :=
      (List.getElem?_eq_some_iff.mp hget).1
    have hnotl : slot ∉ l := by
      intro hs
      obtain ⟨g', nf', hg⟩ := (hmem slot).mp hs
      rw [hget] at hg; cases hg
    have hgenrange : 0 < gen?.getD (Generation.next gen) ∧
        gen?.getD (Generation.next gen) ≤ u32max := by
      cases hg : gen? with
      | none =>
        simp only [Option.getD_none]
        exact ⟨Generation.next_pos,
          Generation.next_le (ha.gens.at_get hget).2⟩
      | some g =>
        simp only [Option.getD_some]
        exact hgen g hg
    refine ⟨?_, ⟨l, hfl.of_storage_set hnotl, hnd, ?_⟩, ?_⟩
    · show a.len = occupiedCount (a.storage.set slot _)
      rw [occupiedCount_set_reoccupied hget, ha.len_eq]
    · intro s
      rw [isEmptyAt_set_occupied hslotlt]
      constructor
      · intro hs
        exact ⟨fun he => hnotl (he ▸ hs), (hmem s).mp hs⟩
      · rintro ⟨-, hs⟩
        exact (hmem s).mpr hs
    · exact ha.gens.of_set ⟨hgenrange.1, hgenrange.2⟩
  · next hget =>
    have hlenle : a.storage.length ≤ slot := List.getElem?_eq_none_iff.mp hget
    rw [pushEmpties_eq hslot (slot - a.storage.length) a.storage
      a.first_free rfl] at h
    split at h
    · next heq => cases heq
    · next st ff heq =>
      simp only [Option.some.injEq, Prod.mk.injEq] at heq
      obtain ⟨hst, hff⟩ := heq
      dsimp only at h
      by_cases hlen : a.len = u32max
      · rw [if_pos hlen] at h; cases h
      rw [if_neg hlen] at h
      simp only [Option.some.injEq, Prod.mk.injEq] at h
      obtain ⟨-, hb⟩ := h
      subst hb
      subst hst
      subst hff
      obtain ⟨l, hfl, hnd, hmem⟩ := ha.free
      set len0 := a.storage.length with hlen0
      set k := slot - len0 with hkdef
      set gen' := gen?.getD Generation.first with hgen'
      have hrowlen : (emptyRow a.first_free len0 k : List (Entry T)).length = k :=
        emptyRow_length _ _ _
      have hmidlen : (a.storage ++ emptyRow a.first_free len0 k).length = slot := by
        simp only [List.length_append, hrowlen]
        omega
      have hmemlt : ∀ s ∈ l, s < len0 := hfl.mem_lt_length
      have hgenrange : 0 < gen' ∧ gen' ≤ u32max := by
        cases hg : gen? with
        | none =>
          rw [hgen', hg]
          exact ⟨Nat.one_pos, by show Generation.first ≤ u32max; decide⟩
        | some g =>
          rw [hgen', hg]
          exact hgen g hg
      have hmid : ∀ j, len0 ≤ j → j < slot →
          ((a.storage ++ emptyRow a.first_free len0 k) ++
            [Entry.occupied gen' v])[j]? =
          some (.empty Generation.first
            (if j = len0 then a.first_free else some j)) := by
        intro j hj1 hj2
        rw [List.getElem?_append_left (by omega)]
        rw [List.getElem?_append_right (by omega)]
        rw [emptyRow_getElem _ _ (by omega)]
        congr 1
        congr 1
        by_cases hj0 : j = len0
        · rw [if_pos (by omega), if_pos hj0]
        · rw [if_neg (by omega), if_neg hj0]
          congr 1
          omega
      have hchain : FreeList ((a.storage ++ emptyRow a.first_free len0 k) ++
          [Entry.occupied gen' v]) a.first_free l :=
        (hfl.of_storage_append).of_storage_append
      have hnew := freeList_descRow hmid hchain k (by omega)
      refine ⟨?_, ⟨descRow len0 k ++ l, ?_, ?_, ?_⟩, ?_⟩
      · show a.len + 1 = occupiedCount _
        rw [occupiedCount_append, occupiedCount_append,
          emptyRow_occupiedCount, ha.len_eq]
        simp [occupiedCount, List.countP_singleton, Entry.isOccupied]
      · show FreeList _ (if slot ≤ len0 then a.first_free else some slot) _
        have hcond : (if slot ≤ len0 then a.first_free else some slot) =
            (if k = 0 then a.first_free else some (len0 + k)) := by
          by_cases hsl : slot ≤ len0
          · rw [if_pos hsl, if_pos (by omega)]
          · rw [if_neg hsl, if_neg (by omega)]
            congr 1
            omega
        rw [hcond]
        exact hnew
      · rw [List.nodup_append]
        refine ⟨descRow_nodup _ _, hnd, ?_⟩
        intro s hs1 hs2
        rw [descRow_mem] at hs1
        exact absurd (hmemlt s hs2) (by omega)
      · intro s
        rw [List.mem_append, descRow_mem]
        by_cases hs1 : s < len0
        · have hnot1 : ¬(len0 ≤ s ∧ s < len0 + k) := by omega
          have hevalue : ((a.storage ++ emptyRow a.first_free len0 k) ++
              [Entry.occupied gen' v])[s]? = a.storage[s]? := by
            rw [List.getElem?_append_left (by omega),
              List.getElem?_append_left (by omega)]
          constructor
          · rintro (hs2 | hs2)
            · exact absurd hs2 hnot1
            · obtain ⟨g2, nf2, hge⟩ := (hmem s).mp hs2
              exact ⟨g2, nf2, by rw [hevalue]; exact hge⟩
          · rintro ⟨g2, nf2, hge⟩
            rw [hevalue] at hge
            exact Or.inr ((hmem s).mpr ⟨g2, nf2, hge⟩)
        · by_cases hs2 : s < slot
          · constructor
            · intro _
              exact ⟨Generation.first, _, hmid s (by omega) hs2⟩
            · intro _
              exact Or.inl (by omega)
          · have hnot1 : ¬(len0 ≤ s ∧ s < len0 + k) := by omega
            have hnot2 : s ∉ l := fun hs => absurd (hmemlt s hs) (by omega)
            constructor
            · rintro (hs3 | hs3)
              · exact absurd hs3 hnot1
              · exact absurd hs3 hnot2
            · rintro ⟨g2, nf2, hge⟩
              rw [List.getElem?_append_right (by omega), hmidlen] at hge
              by_cases hs3 : s = slot
              · subst hs3
                simp at hge
              · rw [List.getElem?_eq_none (by simp; omega)] at hge
                cases hge
      · refine (ha.gens.of_append (emptyRow_gens _ _ _)).of_append ?_
        intro e he
        simp only [List.mem_singleton] at he
        subst he
        exact ⟨hgenrange.1, hgenrange.2⟩

theorem Inv.of_insert_at {a : Arena T} {i : Index} {v : T} {r : Option T}
    {b : Arena T} (ha : Inv a) (hwf : Index.WF i)
    (h : a.insert_at i v = some (r, b)) : Inv b := by
  unfold Arena.insert_at at h
  cases hin : a.insert_at_inner i.slot (some i.generation) v with
  | none => rw [hin] at h; cases h
  | some rb =>
    rw [hin] at h
    obtain ⟨⟨ir, old⟩, c⟩ := rb
    simp only [Option.map_some', Option.some.injEq, Prod.mk.injEq] at h
    obtain ⟨-, hb⟩ := h
    subst hb
    exact ha.of_insert_at_inner hwf.2.2
      (fun g hg => by
        injection hg with hg
        subst hg
        exact ⟨hwf.1, hwf.2.1⟩) hin

theorem Inv.of_insert_at_slot {a : Arena T} {slot : Nat} {v : T}
    {r : Index × Option T} {b : Arena T} (ha : Inv a) (hslot : slot ≤ u32max)
    (h : a.insert_at_slot slot v = some (r, b)) : Inv b :=
  ha.of_insert_at_inner hslot (fun g hg => by cases hg) h

/-! ### Claim C3: handle bit encoding -/

theorem from_bits_eq (b : Nat) (hb : b < 2 ^ 64) (hne : b / 2 ^ 32 ≠ 0) :
    Index.from_bits b = some ⟨b % 2 ^ 32, b / 2 ^ 32⟩ := by
  have hdiv : b / 2 ^ 32 < 2 ^ 32 := by
    apply Nat.div_lt_of_lt_mul
    calc b < 2 ^ 64 := hb
    _ = 2 ^ 32 * 2 ^ 32 := by norm_num
  have h32 : (4294967296 : Nat) = 2 ^ 32 := by norm_num
  unfold Index.from_bits Generation.from_u32
  rw [Nat.shiftRight_eq_div_pow, h32, Nat.mod_eq_of_lt hdiv, if_neg hne]

/-- C3: for every 64-bit value b whose high 32 bits are
nonzero, Index.from_bits b returns the index with generation the high
32 bits of b and slot the low 32 bits, and to_bits of that index is b
again; for every b whose high 32 bits are zero, from_bits b is none. -/
theorem C3_from_bits_to_bits (b : Nat) (hb : b < 2 ^ 64) :
    (b / 2 ^ 32 ≠ 0 →
      Index.from_bits b = some ⟨b % 2 ^ 32, b / 2 ^ 32⟩ ∧
      (Index.from_bits b).map Index.to_bits = some b) ∧
    (b / 2 ^ 32 = 0 → Index.from_bits b = none) := by
  constructor
  · intro hne
    refine ⟨from_bits_eq b hb hne, ?_⟩
    rw [from_bits_eq b hb hne]
    have hmod : b % 2 ^ 32 < 2 ^ 32 := Nat.mod_lt _ (by norm_num)
    show some (Index.to_bits ⟨b % 2 ^ 32, b / 2 ^ 32⟩) = some b
    unfold Index.to_bits Generation.to_u32
    simp only
    rw [Nat.shiftLeft_eq, Nat.mul_comm, ← Nat.mul_add_lt_is_or hmod]
    congr 1
    omega
  · intro hzero
    have hdiv : b / 2 ^ 32 < 2 ^ 32 := by
      apply Nat.div_lt_of_lt_mul
      calc b < 2 ^ 64 := hb
      _ = 2 ^ 32 * 2 ^ 32 := by norm_num
    have h32 : (4294967296 : Nat) = 2 ^ 32 := by norm_num
    unfold Index.from_bits Generation.from_u32
    rw [Nat.shiftRight_eq_div_pow, h32, Nat.mod_eq_of_lt hdiv, if_pos hzero]

/-- Witness for C3 at the concrete bit patterns of the repository's own
tests. -/
theorem C3_from_bits_to_bits_witness :
    (Index.from_bits 0x1BADCAFEDEADBEEF = some ⟨0xDEADBEEF, 0x1BADCAFE⟩ ∧
      (Index.from_bits 0x1BADCAFEDEADBEEF).map Index.to_bits =
        some 0x1BADCAFEDEADBEEF) ∧
    Index.from_bits 0xDEADBEEF = none := by
  constructor
  · have h := (C3_from_bits_to_bits 0x1BADCAFEDEADBEEF (by norm_num)).1
      (by norm_num)
    exact ⟨by rw [h.1]; norm_num, h.2⟩
  · exact (C3_from_bits_to_bits 0xDEADBEEF (by norm_num)).2 (by norm_num)

/-! ### Claim C8: generation successor -/

/-- C8: Generation.next g is g + 1 when g is below the u32 maximum and
wraps to 1 at the maximum, never 0 and never an overflow failure;
Generation.first is 1. -/
theorem C8_generation_next (g : Nat) :
    (g < u32max → Generation.next g = g + 1) ∧
    Generation.next u32max = 1 ∧
    Generation.first = 1 := by
  refine ⟨fun h => ?_, by simp [Generation.next], rfl⟩
  simp [Generation.next, Nat.ne_of_lt h]

/-- Witness for C8 at a small generation. -/
theorem C8_generation_next_witness :
    Generation.next 5 = 6 ∧ Generation.next u32max = 1 :=
  ⟨(C8_generation_next 5).1 (by decide), (C8_generation_next 5).2.1⟩

/-! ### Claim C6: dual mutable access -/

/-- C6: get2_mut panics exactly when the two indices are equal; for
distinct indices it returns the two independent lookups, and when the
indices share a slot but differ at most one lookup succeeds. -/
theorem C6_get2_mut (a : Arena T) (i1 i2 : Index) :
    (a.get2_mut i1 i2 = none ↔ i1 = i2) ∧
    (i1 ≠ i2 → a.get2_mut i1 i2 = some (a.get i1, a.get i2)) ∧
    (i1.slot = i2.slot → i1 ≠ i2 →
      a.get i1 = none ∨ a.get i2 = none) := by
  refine ⟨?_, fun h => by simp [Arena.get2_mut, h], fun hs hne => ?_⟩
  · unfold Arena.get2_mut
    split <;> simp_all
  · by_contra hc
    push_neg at hc
    obtain ⟨h1, h2⟩ := hc
    unfold Arena.get at h1 h2
    rw [← hs] at h2
    cases hget : a.storage[i1.slot]? with
    | none => rw [hget] at h1; exact h1 rfl
    | some e =>
      cases e with
      | empty g nf => rw [hget] at h1; exact h1 rfl
      | occupied g v =>
        rw [hget] at h1 h2
        by_cases e1 : g = i1.generation
        · by_cases e2 : g = i2.generation
          · exact hne (by cases i1; cases i2; simp_all)
          · simp [e2] at h2
        · simp [e1] at h1

/-- Witness for C6 on a two-element arena. -/
theorem C6_get2_mut_witness :
    (Arena.get2_mut ⟨[.occupied 1 10, .occupied 1 20], 2, none⟩
        ⟨0, 1⟩ ⟨1, 1⟩ = some (some (10 : Nat), some 20)) ∧
    (Arena.get2_mut ⟨[.occupied 1 (10 : Nat), .occupied 1 20], 2, none⟩
        ⟨0, 1⟩ ⟨0, 1⟩ = none) := by
  constructor
  · rw [(C6_get2_mut ⟨[.occupied 1 10, .occupied 1 20], 2, none⟩
        ⟨0, 1⟩ ⟨1, 1⟩).2.1 (by decide)]
    decide
  · exact (C6_get2_mut ⟨[.occupied 1 (10 : Nat), .occupied 1 20], 2, none⟩
        ⟨0, 1⟩ ⟨0, 1⟩).1.mpr rfl

/-! ### Claim C5: LIFO free-list order -/

/-- C5: from the empty arena, inserting A, B, C, removing A then B, then
inserting D and E makes D occupy B's former slot and E occupy A's former
slot, each with a fresh generation: the free list is LIFO. -/
theorem C5_lifo_free_list :
    Arena.new.insert (1 : Nat) =
      some (⟨0, 1⟩, ⟨[.occupied 1 1], 1, none⟩) ∧
    Arena.insert ⟨[.occupied 1 1], 1, none⟩ 2 =
      some (⟨1, 1⟩, ⟨[.occupied 1 1, .occupied 1 2], 2, none⟩) ∧
    Arena.insert ⟨[.occupied 1 1, .occupied 1 2], 2, none⟩ 3 =
      some (⟨2, 1⟩,
        ⟨[.occupied 1 1, .occupied 1 2, .occupied 1 3], 3, none⟩) ∧
    Arena.remove ⟨[.occupied 1 1, .occupied 1 2, .occupied 1 3], 3, none⟩
        ⟨0, 1⟩ =
      some (some 1,
        ⟨[.empty 1 none, .occupied 1 2, .occupied 1 3], 2, some 1⟩) ∧
    Arena.remove ⟨[.empty 1 none, .occupied 1 2, .occupied 1 3], 2, some 1⟩
        ⟨1, 1⟩ =
      some (some 2,
        ⟨[.empty 1 none, .empty 1 (some 1), .occupied 1 3], 1, some 2⟩) ∧
    Arena.insert
        ⟨[.empty 1 none, .empty 1 (some 1), .occupied 1 3], 1, some 2⟩ 4 =
      some (⟨1, 2⟩,
        ⟨[.empty 1 none, .occupied 2 4, .occupied 1 3], 2, some 1⟩) ∧
    Arena.insert ⟨[.empty 1 none, .occupied 2 4, .occupied 1 3], 2, some 1⟩
        5 =
      some (⟨0, 2⟩,
        ⟨[.occupied 2 5, .occupied 2 4, .occupied 1 3], 3, none⟩) ∧
    (⟨1, 2⟩ : Index).slot = (⟨1, 1⟩ : Index).slot ∧
    (⟨0, 2⟩ : Index).slot = (⟨0, 1⟩ : Index).slot ∧
    (⟨1, 2⟩ : Index).generation ≠ (⟨1, 1⟩ : Index).generation ∧
    (⟨0, 2⟩ : Index).generation ≠ (⟨0, 1⟩ : Index).generation := by
  decide

/-! ### Reachability preserves the invariant -/

theorem Inv.of_step {a b : Arena T} (ha : Inv a) (h : Step a b) : Inv b := by
  cases h with
  | insert h => exact ha.of_insert h
  | insert_at hwf h => exact ha.of_insert_at hwf h
  | insert_at_slot hs h => exact ha.of_insert_at_slot hs h
  | remove h => exact ha.of_remove h
  | remove_by_slot hs h => exact ha.of_remove_by_slot h
  | retain h => exact ha.of_retain h

theorem Inv.of_reaches {a b : Arena T} (ha : Inv a) (h : Reaches a b) :
    Inv b := by
  induction h with
  | refl => exact ha
  | tail _ hstep ih => exact ih.of_step hstep

theorem StepIRR.to_step {a b : Arena T} (h : StepIRR a b) : Step a b := by
  cases h with
  | insert h => exact .insert h
  | remove h => exact .remove h
  | retain h => exact .retain h

theorem ReachesIRR.to_reaches {a b : Arena T} (h : ReachesIRR a b) :
    Reaches a b :=
  Relation.ReflTransGen.mono (fun _ _ => StepIRR.to_step) h

/-! ### Counting valid indices -/

theorem length_filterMap_countP {α β : Type} (f : α → Option β) :
    ∀ l : List α, (l.filterMap f).length = l.countP (fun x => (f x).isSome) := by
  intro l
  induction l with
  | nil => rfl
  | cons x l ih =>
    rw [List.filterMap_cons, List.countP_cons]
    cases hx : f x with
    | none => simp [hx, ih]
    | some b => simp [hx, ih]

theorem countP_range_occupied (st : List (Entry T)) :
    ((List.range st.length).countP
      (fun s => (match st[s]? with
        | some (.occupied _ _) => true
        | _ => false))) = occupiedCount st := by
  induction st using List.reverseRecOn with
  | nil => rfl
  | append_singleton st e ih =>
    rw [List.length_append, List.length_singleton, List.range_succ,
      List.countP_append, occupiedCount_append]
    congr 1
    · rw [← ih]
      refine List.countP_congr ?_
      intro s hs
      rw [List.mem_range] at hs
      rw [List.getElem?_append_left hs]
    · rw [List.countP_singleton, List.getElem?_concat_length]
      cases e with
      | occupied g v => simp [occupiedCount, Entry.isOccupied]
      | empty g nf => simp [occupiedCount, Entry.isOccupied]

theorem validIndices_length (a : Arena T) :
    (validIndices a).length = occupiedCount a.storage := by
  unfold validIndices
  rw [length_filterMap_countP]
  rw [← countP_range_occupied a.storage]
  refine List.countP_congr ?_
  intro s _
  unfold Arena.contains_slot
  cases hget : a.storage[s]? with
  | none => simp
  | some e => cases e <;> simp

theorem get_isSome_iff_mem_validIndices (a : Arena T) (i : Index) :
    (a.get i).isSome ↔ i ∈ validIndices a := by
  unfold validIndices
  rw [List.mem_filterMap]
  constructor
  · intro hsome
    unfold Arena.get at hsome
    cases hget : a.storage[i.slot]? with
    | none => rw [hget] at hsome; simp at hsome
    | some e =>
      cases e with
      | empty g nf => rw [hget] at hsome; simp at hsome
      | occupied g v =>
        rw [hget] at hsome
        dsimp only at hsome
        by_cases hgen : g = i.generation
        · refine ⟨i.slot, ?_, ?_⟩
          · rw [List.mem_range]
            exact (List.getElem?_eq_some_iff.mp hget).1
          · unfold Arena.contains_slot
            rw [hget, hgen]
        · rw [if_neg hgen] at hsome
          simp at hsome
  · rintro ⟨s, -, hcs⟩
    unfold Arena.contains_slot at hcs
    cases hget : a.storage[s]? with
    | none => rw [hget] at hcs; cases hcs
    | some e =>
      cases e with
      | empty g nf => rw [hget] at hcs; cases hcs
      | occupied g v =>
        rw [hget] at hcs
        injection hcs with hcs
        subst hcs
        unfold Arena.get
        rw [hget]
        simp

theorem validIndices_nodup (a : Arena T) : (validIndices a).Nodup := by
  refine List.Nodup.filterMap ?_ (List.nodup_range _)
  intro s s' i hi hi'
  have hs : i.slot = s := by
    unfold Arena.contains_slot at hi
    cases hget : a.storage[s]? with
    | none => rw [hget] at hi; cases hi
    | some e =>
      cases e with
      | empty g nf => rw [hget] at hi; cases hi
      | occupied g v =>
        rw [hget] at hi
        injection hi with hi
        rw [← hi]
  have hs' : i.slot = s' := by
    unfold Arena.contains_slot at hi'
    cases hget : a.storage[s']? with
    | none => rw [hget] at hi'; cases hi'
    | some e =>
      cases e with
      | empty g nf => rw [hget] at hi'; cases hi'
      | occupied g v =>
        rw [hget] at hi'
        injection hi' with hi'
        rw [← hi']
  rw [← hs, ← hs']

/-! ### Claim C2: length invariant -/

/-- C2: for every arena reachable from Arena::new by insert, remove and
retain calls, len equals the number of Occupied entries of storage,
which equals the number of indices the arena answers: the valid indices
form a duplicate-free list of exactly len entries, and get i succeeds
exactly for its members. -/
theorem C2_len_invariant (a : Arena T) (h : ReachesIRR Arena.new a) :
    a.len = occupiedCount a.storage ∧
    a.len = (validIndices a).length ∧
    (∀ i : Index, (a.get i).isSome ↔ i ∈ validIndices a) ∧
    (validIndices a).Nodup := by
  have hinv : Inv a := Inv.of_new.of_reaches h.to_reaches
  exact ⟨hinv.len_eq, by rw [validIndices_length, hinv.len_eq],
    get_isSome_iff_mem_validIndices a, validIndices_nodup a⟩

/-- Witness for C2 on the arena reached by inserting 1, 2 and removing
the first index. -/
theorem C2_len_invariant_witness :
    (⟨[.empty 1 none, .occupied 1 2], 1, some 1⟩ : Arena Nat).len = 1 ∧
    occupiedCount
      (⟨[.empty 1 none, .occupied 1 2], 1, some 1⟩ : Arena Nat).storage = 1 ∧
    validIndices (⟨[.empty 1 none, .occupied 1 2], 1, some 1⟩ : Arena Nat) =
      [⟨1, 1⟩] := by
  have hreach : ReachesIRR (Arena.new : Arena Nat)
      ⟨[.empty 1 none, .occupied 1 2], 1, some 1⟩ := by
    refine Relation.ReflTransGen.tail (Relation.ReflTransGen.tail
      (Relation.ReflTransGen.tail Relation.ReflTransGen.refl
        (StepIRR.insert (v := 1) (i := ⟨0, 1⟩)
          (b := ⟨[.occupied 1 1], 1, none⟩) (by decide)))
        (StepIRR.insert (v := 2) (i := ⟨1, 1⟩)
          (b := ⟨[.occupied 1 1, .occupied 1 2], 2, none⟩) (by decide)))
      (StepIRR.remove (i := ⟨0, 1⟩) (r := some 1) (by decide))
  have h := C2_len_invariant _ hreach
  refine ⟨rfl, ?_, by decide⟩
  rw [← h.1]

/-! ### Claim C4: free-list exactness -/

/-- C4: for every arena reachable from Arena::new by any sequence of
insert, insert_at, insert_at_slot, remove, remove_by_slot and retain
calls, the chain starting at first_free and following each Empty entry's
next_free visits every currently-Empty slot exactly once and ends in
none. -/
theorem C4_free_list_exact (a : Arena T) (h : Reaches Arena.new a) :
    ∃ l, FreeList a.storage a.first_free l ∧ l.Nodup ∧
      ∀ s, s ∈ l ↔ IsEmptyAt a.storage s :=
  (Inv.of_new.of_reaches h).free

/-- Witness for C4 on the arena reached by inserting 1, 2 and removing
both indices, leaving the free list 1, 0. -/
theorem C4_free_list_exact_witness :
    ∃ l, FreeList
        (⟨[.empty 1 none, .empty 1 (some 1)], 0, some 2⟩ :
          Arena Nat).storage
        (⟨[.empty 1 none, .empty 1 (some 1)], 0, some 2⟩ :
          Arena Nat).first_free l ∧ l.Nodup ∧
      ∀ s, s ∈ l ↔ IsEmptyAt
        (⟨[.empty 1 none, .empty 1 (some 1)], 0, some 2⟩ :
          Arena Nat).storage s := by
  refine C4_free_list_exact _ ?_
  refine Relation.ReflTransGen.tail (Relation.ReflTransGen.tail
    (Relation.ReflTransGen.tail (Relation.ReflTransGen.tail
      Relation.ReflTransGen.refl
      (Step.insert (v := 1) (i := ⟨0, 1⟩)
        (b := ⟨[.occupied 1 1], 1, none⟩) (by decide)))
      (Step.insert (v := 2) (i := ⟨1, 1⟩)
        (b := ⟨[.occupied 1 1, .occupied 1 2], 2, none⟩) (by decide)))
    (Step.remove (i := ⟨0, 1⟩) (r := some 1)
      (b := ⟨[.empty 1 none, .occupied 1 2], 1, some 1⟩) (by decide)))
    (Step.remove (i := ⟨1, 1⟩) (r := some 2) (by decide))

/-! ### Claim C1: ABA safety and generation wraparound -/

theorem gIter_formula {g : Nat} (hg : 0 < g) (hgle : g ≤ u32max) (j : Nat) :
    gIter j g = (g - 1 + j) % u32max + 1 := by
  induction j with
  | zero =>
    show g = (g - 1 + 0) % u32max + 1
    rw [Nat.add_zero, Nat.mod_eq_of_lt (by omega)]
    omega
  | succ j ih =>
    show Generation.next (gIter j g) = _
    rw [ih]
    unfold Generation.next u32max at *
    by_cases hcase : (g - 1 + j) % 4294967295 + 1 = 4294967295
    · rw [if_pos hcase]
      omega
    · rw [if_neg hcase]
      omega

theorem DeadInv.of_insert_step {slot g0 n : Nat} {a b : Arena T} {v : T}
    {i : Index} (hd : DeadInv slot g0 n a) (h : a.insert v = some (i, b)) :
    DeadInv slot g0 (n + 1) b := by
  obtain ⟨j, hj, hcase⟩ := hd
  obtain ⟨-, hins⟩ := insert_some_cases h
  rcases hins with ⟨fp, gen, nf, hff, hget, -, rfl⟩ | ⟨-, -, -, rfl⟩
  · by_cases hs : FreePointer.slot fp = slot
    · rw [hs] at hget
      have hlt : slot < a.storage.length :=
        (List.getElem?_eq_some_iff.mp hget).1
      rcases hcase with ⟨nf', hget'⟩ | ⟨-, v', hget'⟩
      · rw [hget'] at hget
        simp only [Option.some.injEq, Entry.empty.injEq] at hget
        obtain ⟨hgen, -⟩ := hget
        refine ⟨j + 1, by omega, Or.inr ⟨by omega, v, ?_⟩⟩
        show (a.storage.set (FreePointer.slot fp) _)[slot]? = _
        rw [hs, List.getElem?_set_self hlt]
        rw [← hgen]
        rfl
      · rw [hget'] at hget
        cases hget
    · refine ⟨j, by omega, ?_⟩
      rcases hcase with ⟨nf', hget'⟩ | ⟨hj0, v', hget'⟩
      · exact Or.inl ⟨nf',
          by dsimp only; rw [List.getElem?_set_ne hs]; exact hget'⟩
      · exact Or.inr ⟨hj0, v',
          by dsimp only; rw [List.getElem?_set_ne hs]; exact hget'⟩
  · refine ⟨j, by omega, ?_⟩
    rcases hcase with ⟨nf', hget'⟩ | ⟨hj0, v', hget'⟩
    · have hlt : slot < a.storage.length :=
        (List.getElem?_eq_some_iff.mp hget').1
      exact Or.inl ⟨nf',
        by dsimp only; rw [List.getElem?_append_left hlt]; exact hget'⟩
    · have hlt : slot < a.storage.length :=
        (List.getElem?_eq_some_iff.mp hget').1
      exact Or.inr ⟨hj0, v',
        by dsimp only; rw [List.getElem?_append_left hlt]; exact hget'⟩

theorem DeadInv.of_remove_step {slot g0 n : Nat} {a b : Arena T} {idx : Index}
    {r : Option T} (hd : DeadInv slot g0 n a)
    (h : a.remove idx = some (r, b)) : DeadInv slot g0 n b := by
  obtain ⟨j, hj, hcase⟩ := hd
  rcases remove_some_cases h with ⟨v, hget, -, -, -, rfl⟩ | ⟨-, rfl⟩
  · by_cases hs : idx.slot = slot
    · rw [hs] at hget
      have hlt : slot < a.storage.length :=
        (List.getElem?_eq_some_iff.mp hget).1
      rcases hcase with ⟨nf', hget'⟩ | ⟨hj0, v', hget'⟩
      · rw [hget'] at hget
        cases hget
      · rw [hget'] at hget
        simp only [Option.some.injEq, Entry.occupied.injEq] at hget
        obtain ⟨hgen, -⟩ := hget
        refine ⟨j, hj, Or.inl ⟨a.first_free, ?_⟩⟩
        show (a.storage.set idx.slot _)[slot]? = _
        rw [hs, List.getElem?_set_self hlt]
        rw [hgen]
    · refine ⟨j, hj, ?_⟩
      rcases hcase with ⟨nf', hget'⟩ | ⟨hj0, v', hget'⟩
      · exact Or.inl ⟨nf', by
          dsimp only
          rw [List.getElem?_set_ne hs]
          exact hget'⟩
      · exact Or.inr ⟨hj0, v', by
          dsimp only
          rw [List.getElem?_set_ne hs]
          exact hget'⟩
  · exact ⟨j, hj, hcase⟩

theorem DeadInv.of_reachN {slot g0 : Nat} {a b : Arena T} {n m : Nat}
    (hd : DeadInv slot g0 m a) (h : ReachN a b n) :
    DeadInv slot g0 (m + n) b := by
  induction h with
  | refl => exact hd
  | insert _ hstep ih => exact ih.of_insert_step hstep
  | remove _ hstep ih => exact ih.of_remove_step hstep

/-- C1, amended: after remove idx succeeds on an arena reached through
the API, every later state reached by insert and remove calls answers
get idx with none, provided fewer than u32max = 2^32 - 1 of those calls
are inserts.  (The unamended claim fails once the slot's generation
wraps all the way around; see the counterexample.) -/
theorem C1_aba_amended (a0 a1 a2 : Arena T) (idx : Index) (v : T) (n : Nat)
    (h0 : Reaches Arena.new a0)
    (hr : a0.remove idx = some (some v, a1))
    (hn : ReachN a1 a2 n) (hbound : n < u32max) :
    a2.get idx = none := by
  have hinv : Inv a0 := Inv.of_new.of_reaches h0
  rcases remove_some_cases hr with ⟨v', hget, -, -, -, hb⟩ | ⟨hnone, -⟩
  · subst hb
    have hlt : idx.slot < a0.storage.length :=
      (List.getElem?_eq_some_iff.mp hget).1
    have hg0 : 0 < idx.generation ∧ idx.generation ≤ u32max :=
      hinv.gens.at_get hget
    have hd1 : DeadInv idx.slot idx.generation 0
        ⟨a0.storage.set idx.slot (.empty idx.generation a0.first_free),
          a0.len - 1, some (idx.slot + 1)⟩ := by
      refine ⟨0, Nat.le_refl 0, Or.inl ⟨a0.first_free, ?_⟩⟩
      show (a0.storage.set idx.slot _)[idx.slot]? = _
      rw [List.getElem?_set_self hlt]
      rfl
    have hd2 := hd1.of_reachN hn
    obtain ⟨j, hj, hcase⟩ := hd2
    unfold Arena.get
    rcases hcase with ⟨nf, hget2⟩ | ⟨hj0, v2, hget2⟩
    · rw [hget2]
    · rw [hget2]
      have hne : gIter j idx.generation ≠ idx.generation := by
        rw [gIter_formula hg0.1 hg0.2]
        intro he
        unfold u32max at *
        omega
      dsimp only
      rw [if_neg hne]
  · cases hnone

/-- Witness for the amended C1: insert 1 value, remove it, insert again
(one insert, below the bound); the removed index answers none. -/
theorem C1_aba_amended_witness :
    Arena.get (⟨[.occupied 2 ()], 1, none⟩ : Arena Unit) ⟨0, 1⟩ = none :=
  C1_aba_amended (⟨[.occupied 1 ()], 1, none⟩ : Arena Unit)
    (⟨[.empty 1 none], 0, some 1⟩ : Arena Unit)
    (⟨[.occupied 2 ()], 1, none⟩ : Arena Unit) ⟨0, 1⟩ () 1
    (Relation.ReflTransGen.single (Step.insert (v := ())
      (i := ⟨0, 1⟩) (by decide)))
    (by decide)
    (ReachN.insert (v := ()) (i := ⟨0, 2⟩) ReachN.refl (by decide))
    (by decide)

theorem A_insert {g : Nat} (hlt : g < u32max) :
    Arena.insert (⟨[.empty g none], 0, some 1⟩ : Arena Unit) () =
      some (⟨0, g + 1⟩, ⟨[.occupied (g + 1) ()], 1, none⟩) := by
  have h0 : (0 : Nat) ≠ u32max := by decide
  have hg : g ≠ u32max := Nat.ne_of_lt hlt
  simp [Arena.insert, Generation.next, FreePointer.slot, h0, hg]

theorem B_remove {g : Nat} :
    Arena.remove (⟨[.occupied g ()], 1, none⟩ : Arena Unit) ⟨0, g⟩ =
      some (some (), ⟨[.empty g none], 0, some 1⟩) := by
  have h0 : (0 : Nat) ≠ u32max := by decide
  simp [Arena.remove, FreePointer.from_slot, h0]

theorem reachN_A {g : Nat} (hg : 0 < g) (hle : g ≤ u32max) :
    ReachN (⟨[.empty 1 none], 0, some 1⟩ : Arena Unit)
      (⟨[.empty g none], 0, some 1⟩ : Arena Unit) (g - 1) := by
  induction g with
  | zero => omega
  | succ g ih =>
    cases Nat.eq_zero_or_pos g with
    | inl h0 =>
      subst h0
      exact ReachN.refl
    | inr hpos =>
      have hgle : g ≤ u32max := by omega
      have := ih hpos hgle
      have hstep1 : ReachN (⟨[.empty 1 none], 0, some 1⟩ : Arena Unit)
          (⟨[.occupied (g + 1) ()], 1, none⟩ : Arena Unit) ((g - 1) + 1) :=
        ReachN.insert this (A_insert (by omega))
      have hstep2 : ReachN (⟨[.empty 1 none], 0, some 1⟩ : Arena Unit)
          (⟨[.empty (g + 1) none], 0, some 1⟩ : Arena Unit) ((g - 1) + 1) :=
        ReachN.remove hstep1 B_remove
      have harith : (g - 1) + 1 = (g + 1) - 1 := by omega
      rw [harith] at hstep2
      exact hstep2

/-- Counterexample to C1 as stated: from the empty arena, insert a value
(index slot 0, generation 1) and remove it successfully; then a sequence
of u32max further insert and remove calls reuses the slot until the
generation wraps all the way around, after which get on the removed
index returns the value again. -/
theorem C1_aba_counterexample :
    Reaches (Arena.new : Arena Unit) ⟨[.occupied 1 ()], 1, none⟩ ∧
    Arena.remove (⟨[.occupied 1 ()], 1, none⟩ : Arena Unit) ⟨0, 1⟩ =
      some (some (), ⟨[.empty 1 none], 0, some 1⟩) ∧
    ReachN (⟨[.empty 1 none], 0, some 1⟩ : Arena Unit)
      (⟨[.occupied 1 ()], 1, none⟩ : Arena Unit) u32max ∧
    Arena.get (⟨[.occupied 1 ()], 1, none⟩ : Arena Unit) ⟨0, 1⟩ =
      some () := by
  refine ⟨Relation.ReflTransGen.single (Step.insert (v := ())
    (i := ⟨0, 1⟩) (by decide)), by decide, ?_, by decide⟩
  have hchain := reachN_A (g := u32max) (by decide) (Nat.le_refl _)
  have hfinal : Arena.insert
      (⟨[.empty u32max none], 0, some 1⟩ : Arena Unit) () =
      some (⟨0, 1⟩, ⟨[.occupied 1 ()], 1, none⟩) := by decide
  have := ReachN.insert hchain hfinal
  rw [show u32max - 1 + 1 = u32max from by decide] at this
  exact this

/-! ### Claim C7: invalidate against remove-then-insert -/

/-- C7, amended: when get i = some v, invalidate advances the
generation in place, returning the index with the successor generation,
and the sequence remove i then insert v produces exactly the same arena
(same storage, len and first_free) and the same index — provided
i.slot is not u32::MAX (there remove panics building the free pointer
while invalidate succeeds; see the counterexample) and the
representation facts 0 < len ≤ u32::MAX of a real arena hold.  When
get i = none, invalidate returns none and leaves the arena unchanged. -/
theorem C7_invalidate_equiv (a : Arena T) (i : Index) :
    (∀ v, a.get i = some v → 0 < a.len → a.len ≤ u32max →
      i.slot ≠ u32max →
      (a.invalidate i).1 = some ⟨i.slot, Generation.next i.generation⟩ ∧
      ∃ b, a.remove i = some (some v, b) ∧
        b.insert v = some (⟨i.slot, Generation.next i.generation⟩,
          (a.invalidate i).2)) ∧
    (a.get i = none → a.invalidate i = (none, a)) := by
  constructor
  · intro v hv hlen0 hlenle hslot
    unfold Arena.get at hv
    cases hget : a.storage[i.slot]? with
    | none => rw [hget] at hv; cases hv
    | some e =>
      cases e with
      | empty g nf => rw [hget] at hv; cases hv
      | occupied g v0 =>
        rw [hget] at hv
        dsimp only at hv
        by_cases hgen : g = i.generation
        · rw [if_pos hgen] at hv
          injection hv with hv
          subst hv
          subst hgen
          have hlt : i.slot < a.storage.length :=
            (List.getElem?_eq_some_iff.mp hget).1
          have hinv_eq : a.invalidate i =
              (some ⟨i.slot, Generation.next i.generation⟩,
                ⟨a.storage.set i.slot
                    (Entry.occupied (Generation.next i.generation) v0),
                  a.len, a.first_free⟩) := by
            unfold Arena.invalidate
            rw [hget]
            dsimp only
            rw [if_pos rfl]
          have hrem : a.remove i = some (some v0,
              ⟨a.storage.set i.slot (Entry.empty i.generation a.first_free),
                a.len - 1, some (i.slot + 1)⟩) := by
            unfold Arena.remove FreePointer.from_slot
            rw [hget]
            dsimp only
            rw [if_pos rfl, if_neg hslot]
            dsimp only
            rw [if_neg (by omega)]
          refine ⟨by rw [hinv_eq], ⟨_, hrem, ?_⟩⟩
          unfold Arena.insert
          rw [if_neg (show ¬(a.len - 1 = u32max) from by omega)]
          dsimp only [FreePointer.slot]
          rw [show i.slot + 1 - 1 = i.slot from rfl]
          rw [List.getElem?_set_self hlt]
          dsimp only
          rw [hinv_eq]
          rw [List.set_set]
          rw [show a.len - 1 + 1 = a.len from by omega]
        · rw [if_neg hgen] at hv
          cases hv
  · intro hv
    unfold Arena.get at hv
    unfold Arena.invalidate
    cases hget : a.storage[i.slot]? with
    | none => rfl
    | some e =>
      cases e with
      | empty g nf => rfl
      | occupied g v0 =>
        rw [hget] at hv
        dsimp only at hv ⊢
        by_cases hgen : g = i.generation
        · rw [if_pos hgen] at hv
          cases hv
        · rw [if_neg hgen]

/-- Witness for the amended C7 on a one-element arena. -/
theorem C7_invalidate_equiv_witness :
    (Arena.invalidate (⟨[.occupied 1 7], 1, none⟩ : Arena Nat) ⟨0, 1⟩).1 =
      some ⟨0, 2⟩ ∧
    ∃ b, Arena.remove (⟨[.occupied 1 7], 1, none⟩ : Arena Nat) ⟨0, 1⟩ =
        some (some 7, b) ∧
      b.insert 7 = some (⟨0, 2⟩,
        (Arena.invalidate (⟨[.occupied 1 7], 1, none⟩ : Arena Nat)
          ⟨0, 1⟩).2) := by
  have h := (C7_invalidate_equiv (⟨[.occupied 1 7], 1, none⟩ : Arena Nat)
    ⟨0, 1⟩).1 7 (by decide) (by decide) (by decide) (by decide)
  exact ⟨h.1, h.2⟩

/-- Outcome of get on an occupied slot with matching generation. -/
theorem Arena.get_occ {a : Arena T} {i : Index} {v : T}
    (h : a.storage[i.slot]? = some (.occupied i.generation v)) :
    a.get i = some v := by
  unfold Arena.get
  rw [h]
  dsimp only
  rw [if_pos rfl]

/-- Outcome of invalidate on an occupied slot with matching generation. -/
theorem Arena.invalidate_occ {a : Arena T} {i : Index} {v : T}
    (h : a.storage[i.slot]? = some (.occupied i.generation v)) :
    a.invalidate i = (some ⟨i.slot, Generation.next i.generation⟩,
      ⟨a.storage.set i.slot
          (Entry.occupied (Generation.next i.generation) v),
        a.len, a.first_free⟩) := by
  unfold Arena.invalidate
  rw [h]
  dsimp only
  rw [if_pos rfl]

/-- remove panics at slot u32::MAX: FreePointer::from_slot overflows. -/
theorem Arena.remove_none_at_u32max {a : Arena T} {i : Index} {v : T}
    (h : a.storage[i.slot]? = some (.occupied i.generation v))
    (hs : i.slot = u32max) : a.remove i = none := by
  unfold Arena.remove FreePointer.from_slot
  rw [h]
  dsimp only
  rw [if_pos rfl, if_pos hs]

/-- Outcome of insert_at_slot past the end of storage: placeholder
Empty entries are pushed and threaded into the free list, then the
value occupies the target slot with generation first(). -/
theorem Arena.insert_at_slot_extend (slot : Nat) {a : Arena T} {v : T}
    (hslot : slot ≤ u32max) (hnone : a.storage[slot]? = none)
    (hlen : a.len ≠ u32max) :
    a.insert_at_slot slot v = some ((⟨slot, Generation.first⟩, none),
      ⟨(a.storage ++ emptyRow a.first_free a.storage.length
          (slot - a.storage.length)) ++ [.occupied Generation.first v],
        a.len + 1,
        if slot ≤ a.storage.length then a.first_free else some slot⟩) := by
  unfold Arena.insert_at_slot Arena.insert_at_inner
  rw [hnone]
  dsimp only
  rw [pushEmpties_eq hslot (slot - a.storage.length) a.storage
    a.first_free rfl]
  dsimp only
  rw [if_neg hlen]
  rfl

/-- invalidate at slot u32::MAX on an occupied matching entry: the
returned index carries the advanced generation.  Stated over a variable
storage list so instantiating it at a huge concrete list stays cheap. -/
theorem invalidate_fst_big (l : List (Entry Unit))
    (hl : l[u32max]? = some (.occupied 1 ())) :
    (Arena.invalidate (⟨l, 1, some u32max⟩ : Arena Unit) ⟨u32max, 1⟩).1 =
      some ⟨u32max, 2⟩ := by
  rw [Arena.invalidate_occ (a := (⟨l, 1, some u32max⟩ : Arena Unit))
    (i := ⟨u32max, 1⟩) (v := ()) hl]
  rfl

/-- Counterexample to C7 as stated: the arena built by
insert_at_slot u32::MAX holds a value at slot u32::MAX = 2^32 - 1.
There get succeeds and invalidate succeeds (returning the
next-generation index), but remove panics in FreePointer::from_slot
(slot + 1 overflows u32), so the remove-then-insert sequence cannot
reproduce invalidate's result. -/
theorem C7_invalidate_counterexample :
    Arena.insert_at_slot (Arena.new : Arena Unit) u32max () =
      some ((⟨u32max, 1⟩, none),
        ⟨emptyRow none 0 u32max ++ [.occupied 1 ()], 1, some u32max⟩) ∧
    Arena.get (⟨emptyRow none 0 u32max ++ [.occupied 1 ()], 1,
        some u32max⟩ : Arena Unit) ⟨u32max, 1⟩ = some () ∧
    (Arena.invalidate (⟨emptyRow none 0 u32max ++ [.occupied 1 ()], 1,
        some u32max⟩ : Arena Unit) ⟨u32max, 1⟩).1 = some ⟨u32max, 2⟩ ∧
    Arena.remove (⟨emptyRow none 0 u32max ++ [.occupied 1 ()], 1,
        some u32max⟩ : Arena Unit) ⟨u32max, 1⟩ = none := by
  have hrow : (emptyRow none 0 u32max : List (Entry Unit)).length = u32max :=
    emptyRow_length _ _ _
  have hget : ((emptyRow none 0 u32max ++ [.occupied 1 ()]) :
      List (Entry Unit))[u32max]? = some (.occupied 1 ()) := by
    rw [List.getElem?_append_right (Nat.le_of_eq hrow), hrow, Nat.sub_self]
    rfl
  refine ⟨?_, Arena.get_occ hget, ?_, Arena.remove_none_at_u32max hget rfl⟩
  · have h := Arena.insert_at_slot_extend (a := (Arena.new : Arena Unit))
      u32max (v := ()) (Nat.le_refl u32max)
      (List.getElem?_eq_none (Nat.zero_le _)) (by decide)
    exact h
  · exact invalidate_fst_big _ hget

/-! ### Claim C9: forward iteration -/

/-- C9 fails on the code: the arena reached by three plain inserts has
three Occupied slots, yet the translated Iter::next loop yields only the
first two pairs, because the guard compares the slot cursor with the
remaining count (slot > len) and the third call starts at slot 2 with
len 1. -/
theorem C9_iter_truncates :
    (((Arena.new : Arena Nat).insert 10).bind fun p =>
        (p.2.insert 20).bind fun q => q.2.insert 30) =
      some (⟨2, 1⟩,
        ⟨[.occupied 1 10, .occupied 1 20, .occupied 1 30], 3, none⟩) ∧
    occupiedCount
        ([.occupied 1 10, .occupied 1 20, .occupied 1 30] :
          List (Entry Nat)) = 3 ∧
    (⟨[.occupied 1 10, .occupied 1 20, .occupied 1 30], 3, none⟩ :
        Arena Nat).iter = [(⟨0, 1⟩, 10), (⟨1, 1⟩, 20)] := by
  decide

/-! ### Claim C10: drain leaves the arena empty -/

/-- Outcome of remove_by_slot at an Empty slot: nothing is returned and
the arena is unchanged. -/
theorem Arena.remove_by_slot_empty_eq {a : Arena T} {s g : Nat}
    {nf : Option Nat} (hget : a.storage[s]? = some (.empty g nf)) :
    a.remove_by_slot s = some (none, a) := by
  unfold Arena.remove_by_slot
  rw [hget]

/-- Outcome of remove_by_slot at an Occupied slot below u32::MAX in a
nonempty arena: the entry is removed and pushed onto the free list. -/
theorem Arena.remove_by_slot_occ_eq {a : Arena T} {s gen : Nat} {v : T}
    (hget : a.storage[s]? = some (.occupied gen v)) (hs : s ≠ u32max)
    (hl : a.len ≠ 0) :
    a.remove_by_slot s = some (some (⟨s, gen⟩, v),
      ⟨a.storage.set s (.empty gen a.first_free), a.len - 1,
        some (s + 1)⟩) := by
  unfold Arena.remove_by_slot
  rw [hget]
  dsimp only
  unfold FreePointer.from_slot
  rw [if_neg hs]
  dsimp only
  rw [if_neg hl]

/-- When remove_by_slot completes without yielding a pair, the arena is
unchanged and the addressed slot held no occupied entry. -/
theorem remove_by_slot_none_not_occ {a : Arena T} {s : Nat} {b : Arena T}
    (h : a.remove_by_slot s = some (none, b)) :
    b = a ∧ ∀ gen v, a.storage[s]? ≠ some (.occupied gen v) := by
  unfold Arena.remove_by_slot at h
  split at h
  · next gen v hget =>
    split at h
    · cases h
    · split at h
      · cases h
      · simp at h
  · next g nf hget =>
    simp only [Option.some.injEq, Prod.mk.injEq] at h
    refine ⟨h.2.symm, fun gen v hocc => ?_⟩
    rw [hget] at hocc
    cases hocc
  · next hget =>
    simp only [Option.some.injEq, Prod.mk.injEq] at h
    refine ⟨h.2.symm, fun gen v hocc => ?_⟩
    rw [hget] at hocc
    cases hocc

/-- Characterization of a successful Drain::next call: some occupied
slot t at or past the cursor is removed, every slot between the old
cursor and t held no occupied entry, and the cursor moves to t + 1. -/
theorem drainNext_some_cases {fuel : Nat} {a : Arena T} {s s' : Nat}
    {r : Index × T} {b : Arena T}
    (h : drainNext fuel a s = some (r, (b, s'))) :
    ∃ t gen v, s ≤ t ∧ s' = t + 1 ∧
      a.storage[t]? = some (.occupied gen v) ∧ t ≠ u32max ∧
      (∀ j, s ≤ j → j < t → ∀ g w,
        a.storage[j]? ≠ some (.occupied g w)) ∧
      b = ⟨a.storage.set t (.empty gen a.first_free), a.len - 1,
            some (t + 1)⟩ := by
  induction fuel generalizing a s with
  | zero => cases h
  | succ fuel ih =>
    unfold drainNext at h
    split at h
    · cases h
    · split at h
      · cases h
      · next r0 b0 heq =>
        simp only [Option.some.injEq, Prod.mk.injEq] at h
        obtain ⟨rfl, rfl, rfl⟩ := h
        rcases remove_by_slot_some_cases heq with
          ⟨gen, v, hget, hs, -, hr0, rfl⟩ | ⟨hfalse, -⟩
        · injection hr0 with hr0
          exact ⟨s, gen, v, Nat.le_refl s, rfl, hget, hs,
            fun j h1 h2 _ _ _ => absurd (Nat.lt_of_le_of_lt h1 h2)
              (Nat.lt_irrefl s), rfl⟩
        · cases hfalse
      · next b0 heq =>
        obtain ⟨rfl, hnotocc⟩ := remove_by_slot_none_not_occ heq
        obtain ⟨t, gen, v, hst, rfl, hget, hne, hskip, rfl⟩ := ih h
        refine ⟨t, gen, v, Nat.le_of_succ_le hst, rfl, hget, hne,
          fun j h1 h2 g w => ?_, rfl⟩
        rcases Nat.lt_or_ge j (s + 1) with hj | hj
        · have : j = s := by omega
          exact this ▸ hnotocc g w
        · exact hskip j hj h2 g w

/-- One successful Drain::next call preserves the mid-drain invariant
and the storage length. -/
theorem DrainState.of_drainNext {fuel : Nat} {a : Arena T} {s s' : Nat}
    {r : Index × T} {b : Arena T} (hd : DrainState a s)
    (h : drainNext fuel a s = some (r, (b, s'))) :
    DrainState b s' ∧ b.storage.length = a.storage.length := by
  obtain ⟨t, gen, v, hst, rfl, hget, -, hskip, rfl⟩ := drainNext_some_cases h
  have ht : t < a.storage.length := (List.getElem?_eq_some_iff.mp hget).1
  refine ⟨⟨hd.1.free_push hget, fun j hj g w hjw => ?_⟩, List.length_set _ _ _⟩
  by_cases hjt : j = t
  · rw [hjt] at hjw
    have hjw2 : (a.storage.set t (.empty gen a.first_free))[t]? =
        some (Entry.occupied g w) := hjw
    rw [List.getElem?_set_self ht] at hjw2
    cases hjw2
  · have hjw2 : (a.storage.set t (.empty gen a.first_free))[j]? =
        some (Entry.occupied g w) := hjw
    rw [List.getElem?_set_ne (fun he => hjt he.symm)] at hjw2
    rcases Nat.lt_or_ge j s with hjs | hsj
    · exact hd.2 j hjs g w hjw2
    · exact hskip j hsj (by omega) g w hjw2

/-- Any number of Drain::next calls preserves the mid-drain invariant
and the storage length. -/
theorem DrainState.of_drainConsume (fuel k : Nat) {a : Arena T} {s : Nat}
    (hd : DrainState a s) :
    DrainState (drainConsume fuel k (a, s)).1
        (drainConsume fuel k (a, s)).2 ∧
      (drainConsume fuel k (a, s)).1.storage.length =
        a.storage.length := by
  induction k generalizing a s with
  | zero => exact ⟨hd, rfl⟩
  | succ k ih =>
    unfold drainConsume
    dsimp only
    split
    · exact ⟨hd, rfl⟩
    · next r st' heq =>
      obtain ⟨b, s'⟩ := st'
      obtain ⟨hd', hlen'⟩ := hd.of_drainNext heq
      obtain ⟨hd'', hlen''⟩ := ih hd'
      exact ⟨hd'', hlen''.trans hlen'⟩

/-- Running the modelled drop glue from a mid-drain state with enough
fuel empties the arena: len becomes 0, every entry is Empty, and the
storage length (the capacity) is unchanged. -/
theorem drainDrop_empties (dfuel : Nat) {b : Arena T} {s : Nat}
    (hd : DrainState b s) (hlen : b.storage.length ≤ u32max)
    (hf : b.storage.length + 1 - s ≤ dfuel) :
    ∃ c, drainDrop dfuel b s = some c ∧ c.len = 0 ∧
      c.storage.length = b.storage.length ∧
      ∀ e ∈ c.storage, Entry.isOccupied e = false := by
  induction dfuel generalizing b s with
  | zero =>
    have hall : ∀ e ∈ b.storage, Entry.isOccupied e = false := by
      intro e he
      obtain ⟨j, hj, hje⟩ := List.getElem_of_mem he
      have hjget : b.storage[j]? = some e := by
        rw [List.getElem?_eq_getElem hj, hje]
      cases e with
      | occupied g v => exact absurd hjget (hd.2 j (by omega) g v)
      | empty g nf => rfl
    have hcount : occupiedCount b.storage = 0 := by
      rw [occupiedCount, List.countP_eq_zero]
      intro e he
      rw [hall e he]
      exact Bool.false_ne_true
    have hlen0 : b.len = 0 := by rw [hd.1.len_eq, hcount]
    have hemp : b.is_empty = true := by
      simp [Arena.is_empty, hlen0]
    refine ⟨b, ?_, hlen0, rfl, hall⟩
    unfold drainDrop
    rw [if_pos hemp]
  | succ dfuel ih =>
    by_cases hemp : b.is_empty = true
    · have hlen0 : b.len = 0 := by simpa [Arena.is_empty] using hemp
      have hcount : occupiedCount b.storage = 0 := by
        rw [← hd.1.len_eq, hlen0]
      have hall : ∀ e ∈ b.storage, Entry.isOccupied e = false := by
        intro e he
        have := (List.countP_eq_zero.mp hcount) e he
        exact Bool.not_eq_true _ ▸ this
      refine ⟨b, ?_, hlen0, rfl, hall⟩
      unfold drainDrop
      rw [if_pos hemp]
    · have hlen0 : b.len ≠ 0 := by simpa [Arena.is_empty] using hemp
      have hcount : 0 < occupiedCount b.storage := by
        rw [← hd.1.len_eq]; omega
      obtain ⟨e, he, hocc⟩ := List.countP_pos.mp hcount
      obtain ⟨j, hj, hje⟩ := List.getElem_of_mem he
      have hjget : b.storage[j]? = some e := by
        rw [List.getElem?_eq_getElem hj, hje]
      obtain ⟨g0, v0, rfl⟩ : ∃ g v, e = Entry.occupied g v := by
        cases e with
        | occupied g v => exact ⟨g, v, rfl⟩
        | empty g nf => exact absurd hocc (by simp [Entry.isOccupied])
      have hsj : s ≤ j := by
        by_contra hlt
        exact hd.2 j (by omega) g0 v0 hjget
      have hslen : s < b.storage.length := Nat.lt_of_le_of_lt hsj hj
      obtain ⟨e', he'⟩ : ∃ e', b.storage[s]? = some e' := by
        rw [List.getElem?_eq_getElem hslen]
        exact ⟨_, rfl⟩
      cases e' with
      | empty g nf =>
        have heq := Arena.remove_by_slot_empty_eq he'
        have hstep : drainDrop (dfuel + 1) b s = drainDrop dfuel b (s + 1) := by
          simp only [drainDrop]
          rw [if_neg hemp, heq]
        have hd' : DrainState b (s + 1) := by
          refine ⟨hd.1, fun j' hj' g w hjw => ?_⟩
          by_cases hj's : j' = s
          · subst hj's
            rw [he'] at hjw
            cases hjw
          · exact hd.2 j' (by omega) g w hjw
        obtain ⟨c, hc, h1, h2, h3⟩ := ih hd' hlen (by omega)
        exact ⟨c, hstep ▸ hc, h1, h2, h3⟩
      | occupied g v =>
        have hs_ne : s ≠ u32max := by omega
        have heq := Arena.remove_by_slot_occ_eq he' hs_ne hlen0
        have hstep : drainDrop (dfuel + 1) b s =
            drainDrop dfuel ⟨b.storage.set s (.empty g b.first_free),
              b.len - 1, some (s + 1)⟩ (s + 1) := by
          simp only [drainDrop]
          rw [if_neg hemp, heq]
        have hd' : DrainState (⟨b.storage.set s (.empty g b.first_free),
            b.len - 1, some (s + 1)⟩ : Arena T) (s + 1) := by
          refine ⟨hd.1.free_push he', fun j' hj' g' w hjw => ?_⟩
          by_cases hj's : j' = s
          · rw [hj's] at hjw
            have hjw2 : (b.storage.set s (.empty g b.first_free))[s]? =
                some (Entry.occupied g' w) := hjw
            rw [List.getElem?_set_self hslen] at hjw2
            cases hjw2
          · have hjw2 : (b.storage.set s (.empty g b.first_free))[j']? =
                some (Entry.occupied g' w) := hjw
            rw [List.getElem?_set_ne (fun he2 => hj's he2.symm)] at hjw2
            exact hd.2 j' (by omega) g' w hjw2
        have hlset : (b.storage.set s
            (.empty g b.first_free)).length = b.storage.length :=
          List.length_set _ _ _
        obtain ⟨c, hc, h1, h2, h3⟩ := ih hd'
          (by
            show (b.storage.set s (.empty g b.first_free)).length ≤ u32max
            rw [hlset]
            exact hlen)
          (by
            show (b.storage.set s (.empty g b.first_free)).length + 1 -
              (s + 1) ≤ dfuel
            rw [hlset]
            omega)
        refine ⟨c, hstep ▸ hc, h1, ?_, h3⟩
        show c.storage.length = b.storage.length
        rw [h2]
        exact hlset

/-- C10, amended: for every arena reachable from Arena::new whose
storage is addressable by the u32 slot counter (storage length at most
u32::MAX, so no entry occupies slot u32::MAX), however many elements
are consumed from a Drain iterator started at slot 0 before it is
dropped, the spec-modelled drop glue leaves the arena with len 0 and
every slot Empty, and the storage length (the capacity) unchanged.  At
an arena occupying slot u32::MAX the drain loop panics instead of
emptying the arena; see the counterexample. -/
theorem C10_drain_empties (a : Arena T) (k fuel dfuel : Nat)
    (h : Reaches Arena.new a) (hlen : a.storage.length ≤ u32max)
    (hdf : a.storage.length + 1 ≤ dfuel) :
    ∃ c, drainDrop dfuel (drainConsume fuel k (a, 0)).1
        (drainConsume fuel k (a, 0)).2 = some c ∧
      c.len = 0 ∧ (∀ e ∈ c.storage, Entry.isOccupied e = false) ∧
      c.storage.length = a.storage.length := by
  have hinv : Inv a := Inv.of_new.of_reaches h
  have hd0 : DrainState a 0 :=
    ⟨hinv, fun j hj => absurd hj (Nat.not_lt_zero j)⟩
  obtain ⟨hd, hlen_eq⟩ :=
    DrainState.of_drainConsume fuel k hd0
  obtain ⟨c, hc, h1, h2, h3⟩ := drainDrop_empties dfuel hd
    (by rw [hlen_eq]; exact hlen) (by rw [hlen_eq]; omega)
  exact ⟨c, hc, h1, h3, by rw [h2, hlen_eq]⟩

/-- Witness for C10 on the arena reached by inserting 10 and 20, with
one element consumed from the drain before the drop. -/
theorem C10_drain_empties_witness :
    ∃ c, drainDrop 3
        (drainConsume 8 1
          ((⟨[.occupied 1 10, .occupied 1 20], 2, none⟩ : Arena Nat),
            0)).1
        (drainConsume 8 1
          ((⟨[.occupied 1 10, .occupied 1 20], 2, none⟩ : Arena Nat),
            0)).2 = some c ∧
      c.len = 0 ∧ (∀ e ∈ c.storage, Entry.isOccupied e = false) ∧
      c.storage.length = 2 := by
  have hreach : Reaches (Arena.new : Arena Nat)
      ⟨[.occupied 1 10, .occupied 1 20], 2, none⟩ :=
    Relation.ReflTransGen.tail (Relation.ReflTransGen.tail
      Relation.ReflTransGen.refl
      (Step.insert (v := 10) (i := ⟨0, 1⟩)
        (b := ⟨[.occupied 1 10], 1, none⟩) (by decide)))
      (Step.insert (v := 20) (i := ⟨1, 1⟩)
        (b := ⟨[.occupied 1 10, .occupied 1 20], 2, none⟩) (by decide))
  have h := C10_drain_empties
    (⟨[.occupied 1 10, .occupied 1 20], 2, none⟩ : Arena Nat)
    1 8 3 hreach (by decide) (by decide)
  obtain ⟨c, hc, h1, h2, h3⟩ := h
  exact ⟨c, hc, h1, h2, h3⟩

/-- remove_by_slot at slot u32::MAX on an occupied entry panics:
FreePointer::from_slot cannot encode slot + 1. -/
theorem Arena.remove_by_slot_u32max_none {a : Arena T} {gen : Nat} {v : T}
    (h : a.storage[u32max]? = some (.occupied gen v)) :
    a.remove_by_slot u32max = none := by
  unfold Arena.remove_by_slot
  rw [h]
  dsimp only
  unfold FreePointer.from_slot
  rw [if_pos rfl]

/-- Running the drop loop on an arena whose only occupied slot is
u32::MAX never empties it: every slot below u32::MAX is skipped as
Empty and at slot u32::MAX remove_by_slot panics, whatever the fuel.
Stated over a variable storage list so instantiating it at a huge
concrete list stays cheap. -/
theorem drainDrop_big_none (l : List (Entry Unit))
    (hocc : l[u32max]? = some (.occupied 1 ()))
    (hrow : ∀ j, j < u32max → ∃ g nf, l[j]? = some (.empty g nf)) :
    ∀ dfuel s, s ≤ u32max →
      drainDrop dfuel (⟨l, 1, some u32max⟩ : Arena Unit) s = none := by
  have hemp : ¬((⟨l, 1, some u32max⟩ : Arena Unit).is_empty = true) := by
    simp [Arena.is_empty]
  intro dfuel
  induction dfuel with
  | zero =>
    intro s hs
    simp only [drainDrop]
    rw [if_neg hemp]
  | succ dfuel ih =>
    intro s hs
    simp only [drainDrop]
    rw [if_neg hemp]
    by_cases hs' : s = u32max
    · rw [hs']
      have hrem := Arena.remove_by_slot_u32max_none
        (a := (⟨l, 1, some u32max⟩ : Arena Unit)) hocc
      rw [hrem]
    · obtain ⟨g, nf, hj⟩ := hrow s (Nat.lt_of_le_of_ne hs hs')
      have hrem := Arena.remove_by_slot_empty_eq
        (a := (⟨l, 1, some u32max⟩ : Arena Unit)) hj
      rw [hrem]
      show drainDrop dfuel (⟨l, 1, some u32max⟩ : Arena Unit) (s + 1) = none
      exact ih (s + 1) (by omega)

/-- Counterexample to C10 as stated: the arena built by insert_at_slot
u32::MAX holds its single value at slot u32::MAX = 2^32 - 1.  A Drain
obtained there starts at slot 0; the drop loop skips the 2^32 - 1
leading Empty slots and then panics in FreePointer::from_slot inside
remove_by_slot at slot u32::MAX (in the model, drainDrop returns none
for every fuel), so the arena, still holding one element, is never
emptied. -/
theorem C10_drain_counterexample :
    Arena.insert_at_slot (Arena.new : Arena Unit) u32max () =
      some ((⟨u32max, 1⟩, none),
        ⟨emptyRow none 0 u32max ++ [.occupied 1 ()], 1, some u32max⟩) ∧
    (⟨emptyRow none 0 u32max ++ [.occupied 1 ()], 1,
        some u32max⟩ : Arena Unit).len = 1 ∧
    ∀ dfuel, drainDrop dfuel
      (⟨emptyRow none 0 u32max ++ [.occupied 1 ()], 1,
        some u32max⟩ : Arena Unit) 0 = none := by
  have hrow : (emptyRow none 0 u32max : List (Entry Unit)).length = u32max :=
    emptyRow_length _ _ _
  have hocc : ((emptyRow none 0 u32max ++ [.occupied 1 ()]) :
      List (Entry Unit))[u32max]? = some (.occupied 1 ()) := by
    rw [List.getElem?_append_right (Nat.le_of_eq hrow), hrow, Nat.sub_self]
    rfl
  have hempties : ∀ j, j < u32max → ∃ g nf,
      ((emptyRow none 0 u32max ++ [.occupied 1 ()]) :
        List (Entry Unit))[j]? = some (.empty g nf) := by
    intro j hj
    refine ⟨Generation.first, if j = 0 then none else some (0 + j), ?_⟩
    rw [List.getElem?_append_left (Nat.lt_of_lt_of_eq hj hrow.symm),
      emptyRow_getElem none 0 hj]
  refine ⟨?_, rfl, fun dfuel =>
    drainDrop_big_none _ hocc hempties dfuel 0 (Nat.zero_le _)⟩
  exact Arena.insert_at_slot_extend u32max (a := (Arena.new : Arena Unit))
    (v := ()) (Nat.le_refl u32max)
    (List.getElem?_eq_none (Nat.zero_le _)) (by decide)

end Thunderdome
